import Mathlib

/-!
Verification of the woodpecker repository's specification.

The source tree at hand contains the CLI command `pipeline ps`
(`cli/pipeline/…`), the server wiring `cmd/server/setup.go`, and
documentation.  The pipeline task queue / dispatch scheduler that the
specification's §3–§5 describe is part of this repository but its code is
not among the given files, so it is modelled here from the specification's
words (each such definition is marked `Modelled from the spec:`).  The
CLI and server-setup functions are shallowly embedded from the Go source.
-/

namespace Woodpecker

/-! ## Task queue data model (spec §3) -/

/-- Modelled from the spec: task status, §3
`{Pending, WaitingOnDependency, Running, Success, Failure, Cancelled, Skipped}`. -/
inductive TStatus where
  | pending
  | waitingOnDependency
  | running
  | success
  | failure
  | cancelled
  | skipped
deriving DecidableEq, Repr

/-- Modelled from the spec: a status is terminal (task is discarded from
dispatch once terminal). -/
def TStatus.isTerminal : TStatus → Bool
  | .success | .failure | .cancelled | .skipped => true
  | _ => false

/-- Modelled from the spec: a status that propagates the Skipped cascade
(§4.3): Failure, Cancelled, or an already-propagated Skipped. -/
def TStatus.isBad : TStatus → Bool
  | .failure | .cancelled | .skipped => true
  | _ => false

/-- Modelled from the spec: one schedulable unit (§3).  `payload` is opaque
and never inspected by the core, so it is omitted.  `failReason` records
the synthesized reason of a terminal Failure (e.g. `AgentLost`). -/
structure Task where
  id : Nat
  labels : List (String × String)
  dependencies : List Nat
  status : TStatus
  enqueuedAt : Nat
  claimedBy : Option Nat
  leaseExpiresAt : Nat
  requeueCount : Nat
  failReason : Option String
deriving DecidableEq, Repr

/-- The queue: tasks in enqueue order. -/
abbrev Queue := List Task

/-- A dispatch filter, supplied by the caller of `Pop` (§4.4). -/
abbrev TFilter := List (String × String) → Bool

/-- Find the task with a given id. -/
def findTask (q : Queue) (i : Nat) : Option Task :=
  q.find? (fun t => t.id == i)

/-- The status of the task with id `i`, if present. -/
def statusOf (q : Queue) (i : Nat) : Option TStatus :=
  (findTask q i).map Task.status

/-- Modelled from the spec: a dependency id `d` is satisfied iff the task
with that id has reached Success (§4.1, §4.3). -/
def depMet (q : Queue) (d : Nat) : Bool :=
  match findTask q d with
  | some t => t.status == .success
  | none => false

/-- All dependencies of the list are satisfied. -/
def depsMet (q : Queue) (ds : List Nat) : Bool :=
  ds.all (depMet q)

/-- Error taxonomy of the queue (§7). -/
inductive QErr where
  | duplicateID
  | unknownTask
  | notOwner
  | expired
deriving DecidableEq, Repr

/-! ## Push (§4.1) -/

/-- The task record created by `Push`: Pending when every dependency is
already Success (in particular when there are none), else
WaitingOnDependency. -/
def freshTask (q : Queue) (i : Nat) (labels : List (String × String))
    (deps : List Nat) (now : Nat) : Task :=
  { id := i, labels := labels, dependencies := deps,
    status := if depsMet q deps then .pending else .waitingOnDependency,
    enqueuedAt := now, claimedBy := none, leaseExpiresAt := 0,
    requeueCount := 0, failReason := none }

/-- Modelled from the spec: `Push(task)` inserts a task; if `dependencies`
is non-empty and any dependency is not yet Success, status =
WaitingOnDependency, else Pending; fails with `DuplicateID` if the id is
already present (§4.1). -/
def pushQ (q : Queue) (i : Nat) (labels : List (String × String))
    (deps : List Nat) (now : Nat) : Except QErr Queue :=
  if q.any (fun t => t.id == i) then
    .error .duplicateID
  else
    .ok (q ++ [freshTask q i labels deps now])

/-! ## Pop (§4.1, §4.4) -/

/-- Claim a task for an agent: Running with a fresh lease deadline. -/
def claimTask (t : Task) (agent : Nat) (now leaseDur : Nat) : Task :=
  { t with status := .running, claimedBy := some agent,
           leaseExpiresAt := now + leaseDur }

/-- Modelled from the spec: the scan of `Pop`: the first task in enqueue
order that is Pending and matches the filter is claimed; a non-matching
head does not block the scan (§4.1 scanning policy). -/
def popScan (q : Queue) (f : TFilter) (agent : Nat) (now leaseDur : Nat) :
    Option (Task × Queue) :=
  match q with
  | [] => none
  | t :: rest =>
    if t.status = .pending ∧ f t.labels then
      let t' := claimTask t agent now leaseDur
      some (t', t' :: rest)
    else
      (popScan rest f agent now leaseDur).map (fun p => (p.1, t :: p.2))

/-- Modelled from the spec: `Pop(filter)` returns the oldest Pending
task matching the filter and atomically transitions it to Running with a
fresh lease deadline, or none (§4.1). -/
def popQ (q : Queue) (f : TFilter) (agent : Nat) (now leaseDur : Nat) :
    Option (Task × Queue) :=
  popScan q f agent now leaseDur

/-! ## Dependency propagation (§4.3) -/

/-- Modelled from the spec: on a Success, every WaitingOnDependency task
whose dependency set is now fully satisfied is promoted to Pending (§4.3). -/
def promote (q : Queue) : Queue :=
  q.map (fun t =>
    if t.status = .waitingOnDependency ∧ depsMet q t.dependencies then
      { t with status := .pending }
    else t)

/-- One task's worth of a cascade round: a not-yet-dispatched task
(Pending or WaitingOnDependency) one of whose dependencies is Failure,
Cancelled or Skipped is marked Skipped. -/
def markOne (q : Queue) (t : Task) : Task :=
  if (t.status = .pending ∨ t.status = .waitingOnDependency) ∧
      t.dependencies.any (fun d => ((statusOf q d).map TStatus.isBad).getD false) then
    { t with status := .skipped }
  else t

/-- One parallel round of the Skipped cascade. -/
def markSkips (q : Queue) : Queue :=
  q.map (markOne q)

/-- Iterate the cascade round `n` times. -/
def cascadeN : Nat → Queue → Queue
  | 0, q => q
  | n + 1, q => cascadeN n (markSkips q)

/-- Modelled from the spec: the full synchronous transitive cascade of
Skipped over the dependency graph (§4.3); iterating one task's worth of
rounds reaches the fixpoint. -/
def cascade (q : Queue) : Queue :=
  cascadeN q.length q

/-- Set the status of task `i`, clearing its claim. -/
def setStatus (q : Queue) (i : Nat) (s : TStatus) (reason : Option String) : Queue :=
  q.map (fun t =>
    if t.id == i then { t with status := s, claimedBy := none, failReason := reason }
    else t)

/-! ## Done / Evict / Extend / lease sweep (§4.1, §4.2) -/

/-- The result an agent reports through `Done`. -/
inductive DoneResult where
  | success
  | failure
deriving DecidableEq, Repr

/-- Modelled from the spec: `Done(taskID, result)`: the claiming agent
reports Success or Failure; triggers dependency propagation (§4.3); fails
with `UnknownTask` if the id was never pushed or already terminal (§4.1),
and with `NotOwner` if the caller does not hold the current claim (§7). -/
def doneQ (q : Queue) (i : Nat) (agent : Nat) (r : DoneResult) :
    Except QErr Queue :=
  match findTask q i with
  | none => .error .unknownTask
  | some t =>
    if t.status.isTerminal then .error .unknownTask
    else if t.claimedBy ≠ some agent then .error .notOwner
    else
      match r with
      | .success => .ok (promote (setStatus q i .success none))
      | .failure => .ok (cascade (setStatus q i .failure none))

/-- Modelled from the spec: `Evict(taskID, reason)`: administrative
cancellation; marks Cancelled with the same propagation as Failure
(§4.1); on an already-terminal task it is an idempotent no-op, not an
error (§4.3). -/
def evictQ (q : Queue) (i : Nat) : Queue :=
  match findTask q i with
  | none => q
  | some t =>
    if t.status.isTerminal then q
    else cascade (setStatus q i .cancelled none)

/-- Modelled from the spec: `Extend(taskID, agentID)` refreshes
`leaseExpiresAt`; fails with `Expired` if the lease already timed out and
the claim was reclaimed, and `NotOwner` if another agent holds it (§4.1). -/
def extendQ (q : Queue) (i : Nat) (agent : Nat) (now leaseDur : Nat) :
    Except QErr Queue :=
  match findTask q i with
  | none => .error .unknownTask
  | some t =>
    match t.claimedBy with
    | none => .error .expired
    | some a =>
      if a ≠ agent then .error .notOwner
      else .ok (q.map (fun u =>
        if u.id == i then { u with leaseExpiresAt := now + leaseDur } else u))

/-- Modelled from the spec: the Lease Manager sweep (§4.2): every Running
task whose lease deadline has passed is returned to Pending (requeued)
while the requeue count is within the configured limit, and transitioned
to Failure with reason `AgentLost` once the limit is exceeded. -/
def sweepQ (q : Queue) (now : Nat) (limit : Nat) : Queue :=
  q.map (fun t =>
    if t.status = .running ∧ t.leaseExpiresAt < now then
      if t.requeueCount < limit then
        { t with status := .pending, claimedBy := none,
                 requeueCount := t.requeueCount + 1 }
      else
        { t with status := .failure, claimedBy := none,
                 failReason := some "AgentLost" }
    else t)

/-! ## Serialized operation steps (§5) -/

/-- Modelled from the spec: one serialized mutating operation on the
shared queue; all operations are serialized under a single logical lock
(§5), so concurrent histories are interleavings of these atomic steps. -/
inductive StepOp : Queue → Queue → Prop where
  | push {q q' : Queue} {i : Nat} {labels : List (String × String)}
      {deps : List Nat} {now : Nat} :
      pushQ q i labels deps now = .ok q' → StepOp q q'
  | pop {q q' : Queue} {f : TFilter} {agent now leaseDur : Nat} {t : Task} :
      popQ q f agent now leaseDur = some (t, q') → StepOp q q'
  | done {q q' : Queue} {i agent : Nat} {r : DoneResult} :
      doneQ q i agent r = .ok q' → StepOp q q'
  | evict {q : Queue} (i : Nat) : StepOp q (evictQ q i)
  | extend {q q' : Queue} {i agent now leaseDur : Nat} :
      extendQ q i agent now leaseDur = .ok q' → StepOp q q'
  | sweep {q : Queue} (now limit : Nat) : StepOp q (sweepQ q now limit)

/-- A queue state reachable from the empty queue by serialized operations. -/
def Reach (q : Queue) : Prop :=
  Relation.ReflTransGen StepOp [] q

/-- The well-formedness invariant of the queue: ids are unique; every
Pending, Running or Success task has all dependencies satisfied; a claim
is held only on a Running task. -/
def WF (q : Queue) : Prop :=
  (q.map Task.id).Nodup ∧
  (∀ t ∈ q, (t.status = .pending ∨ t.status = .running ∨ t.status = .success) →
    depsMet q t.dependencies = true) ∧
  (∀ t ∈ q, t.claimedBy.isSome → t.status = .running)

/-- `Dependent q i j`: the task with id `j` transitively depends on the
task with id `i` (the dependency edges are the tasks' `dependencies`
lists, which the queue never mutates). -/
inductive Dependent (q : Queue) : Nat → Nat → Prop where
  | direct {i j : Nat} {t : Task} :
      findTask q j = some t → i ∈ t.dependencies → Dependent q i j
  | tail {i k j : Nat} {t : Task} :
      Dependent q i k → findTask q j = some t → k ∈ t.dependencies →
      Dependent q i j

/-! ## The `pipeline ps` argument logic (cli/pipeline, `pipelinePs`) -/

/-- A parse error of Go's `strconv.ParseInt`. -/
inductive ParseErr where
  | errSyntax
  | errRange
deriving DecidableEq, Repr

/-- A character is an ASCII decimal digit. -/
def isDigitCh (c : Char) : Bool :=
  '0' ≤ c && c ≤ '9'

/-- The numeric value of a list of decimal digit characters. -/
def digitsVal (l : List Char) : Nat :=
  l.foldl (fun a c => a * 10 + (c.toNat - 48)) 0

/-- Go's `strconv.ParseInt(s, 10, 64)`: an optional sign followed by at
least one decimal digit, rejected with a range error when the value does
not fit in a signed 64-bit integer. -/
def goParseInt64 (s : String) : Except ParseErr Int :=
  match s.toList with
  | [] => .error .errSyntax
  | c :: rest =>
    let neg : Bool := c = '-'
    let digits : List Char := if c = '-' ∨ c = '+' then rest else c :: rest
    if digits.isEmpty then .error .errSyntax
    else if digits.all isDigitCh then
      let v : Nat := digitsVal digits
      if neg then
        if v ≤ 2 ^ 63 then .ok (-(v : Int)) else .error .errRange
      else
        if v ≤ 2 ^ 63 - 1 then .ok (v : Int) else .error .errRange
    else .error .errSyntax

/-- The pipeline-number selection of `pipelinePs`: the second positional
argument is `"last"` or absent (empty) and the last pipeline's `Number`
is used, else the argument is parsed with `strconv.ParseInt(s, 10, 64)`;
a parse error aborts the command before any pipeline is queried. -/
def pipelinePsNumber (pipelineArg : String) (lastNumber : Int) :
    Except ParseErr Int :=
  if pipelineArg = "last" ∨ pipelineArg.length = 0 then
    .ok lastNumber
  else
    goParseInt64 pipelineArg

/-! ## `setupJWTSecret` (cmd/server/setup.go) -/

/-- An error returned by the server-config store; `recordNotExist` is
`types.RecordNotExist`, everything else is an opaque other error. -/
inductive StoreErr where
  | recordNotExist
  | other (code : Nat)
deriving DecidableEq, Repr

/-- The state of the server-config store visible to `setupJWTSecret`:
the stored record under id `"jwt-secret"` plus injected failures of the
get and set calls. -/
structure JWTStore where
  record : Option String
  getErr : Option Nat
  setErr : Option Nat
deriving DecidableEq, Repr

/-- `store.ServerConfigGet(jwtSecretID)`: an injected failure, else the
record, else `types.RecordNotExist`. -/
def serverConfigGet (st : JWTStore) : Except StoreErr String :=
  match st.getErr with
  | some code => .error (.other code)
  | none =>
    match st.record with
    | some v => .ok v
    | none => .error .recordNotExist

/-- `setupJWTSecret`: returns the stored secret; on `RecordNotExist` it
generates a fresh secret (`fresh` models the random generation), stores
it and returns it; any other error of get, or an error of set, is
returned together with the empty string.  The returned store is the
store after the call. -/
def setupJWTSecret (st : JWTStore) (fresh : String) :
    (String × Option StoreErr) × JWTStore :=
  match serverConfigGet st with
  | .error .recordNotExist =>
    match st.setErr with
    | some code => (("", some (.other code)), st)
    | none => ((fresh, none), { st with record := some fresh })
  | .error e => (("", some e), st)
  | .ok v => ((v, none), st)

/-! ## Workflow-label parsing of `setupEvilGlobals` (cmd/server/setup.go) -/

/-- Go's `strings.Cut(s, "=")` on the character list of `s`: the parts
before and after the first `'='`, or `none` when the string contains no
`'='`. -/
def cutEq : List Char → Option (List Char × List Char)
  | [] => none
  | c :: rest =>
    if c = '=' then some ([], rest)
    else (cutEq rest).map (fun p => (c :: p.1, p.2))

/-- Go map assignment `m[k] = v` on an association list: overwrite the
existing entry or append. -/
def mapPut (m : List (String × String)) (k v : String) :
    List (String × String) :=
  if m.any (fun p => p.1 == k) then
    m.map (fun p => if p.1 == k then (k, v) else p)
  else
    m ++ [(k, v)]

/-- The label loop of `setupEvilGlobals`: each entry of
`default-workflow-labels` is cut at the first `'='` into a key/value pair
of the label map; an entry with no `'='` aborts with
`invalid label filter`. -/
def parseLabelsAux (acc : List (String × String)) :
    List String → Except String (List (String × String))
  | [] => .ok acc
  | e :: rest =>
    match cutEq e.toList with
    | none => .error ("invalid label filter: " ++ e)
    | some (k, v) =>
      parseLabelsAux (mapPut acc (String.mk k) (String.mk v)) rest

/-- The default-workflow-labels map computed by `setupEvilGlobals`, or
the error that makes it fail before installing any map. -/
def parseWorkflowLabels (entries : List String) :
    Except String (List (String × String)) :=
  parseLabelsAux [] entries

/-! ## Concrete example states (reachable by the operations above) -/

/-- The always-true dispatch filter. -/
def exTrue : TFilter := fun _ => true

/-- A filter that only accepts label-free tasks. -/
def exEmpty : TFilter := fun ls => ls.isEmpty

/-- Task 1 as pushed into the empty queue (no dependencies). -/
def exA0 : Task := ⟨1, [], [], .pending, 0, none, 0, 0, none⟩

/-- Task 2 as pushed behind task 1, depending on it. -/
def exB0 : Task := ⟨2, [], [1], .waitingOnDependency, 1, none, 0, 0, none⟩

/-- Task 1 claimed by agent 7 at time 2 with lease 10. -/
def exA1 : Task := ⟨1, [], [], .running, 0, some 7, 12, 0, none⟩

/-- Task 1 reported Success. -/
def exA2 : Task := ⟨1, [], [], .success, 0, none, 12, 0, none⟩

/-- Task 2 promoted to Pending after task 1's Success. -/
def exB1 : Task := ⟨2, [], [1], .pending, 1, none, 0, 0, none⟩

/-- Task 1 reported Failure. -/
def exA3 : Task := ⟨1, [], [], .failure, 0, none, 12, 0, none⟩

/-- Task 2 cascade-Skipped after task 1's Failure. -/
def exB2 : Task := ⟨2, [], [1], .skipped, 1, none, 0, 0, none⟩

/-- A Pending head task whose label no filter below accepts. -/
def exH : Task := ⟨3, [("platform", "arm")], [], .pending, 0, none, 0, 0, none⟩

/-- A label-free Pending task enqueued behind `exH`. -/
def exP : Task := ⟨4, [], [], .pending, 1, none, 0, 0, none⟩

/-- A Running task with an expired lease. -/
def exR : Task := ⟨5, [], [], .running, 0, some 7, 3, 0, none⟩

/-- Task 3, label-free and dependency-free, pushed while task 1 is
Running (so a queue holds a claimed task and a Pending task at once). -/
def exC1 : Task := ⟨3, [], [], .pending, 5, none, 0, 0, none⟩

/-- Pairwise relation between old and new queue entries: ids agree and
Success is preserved forward. -/
def IdSucc (t u : Task) : Prop :=
  u.id = t.id ∧ (t.status = .success → u.status = .success)

/-- A task that the cascade may still mark: Pending or WaitingOnDependency. -/
def isPW (t : Task) : Bool :=
  t.status == .pending || t.status == .waitingOnDependency

/-- The number of still-markable tasks. -/
def pwCount (q : Queue) : Nat :=
  q.countP isPW

/-! ## Basic lemmas about task lookup -/

theorem findTask_eq_some {q : Queue} {i : Nat} {t : Task}
    (h : findTask q i = some t) : t ∈ q ∧ t.id = i := by
  refine ⟨List.mem_of_find?_eq_some h, ?_⟩
  have := List.find?_some h
  simpa using this

theorem findTask_mem_nodup {q : Queue} {t : Task}
    (hnd : (q.map Task.id).Nodup) (ht : t ∈ q) :
    findTask q t.id = some t := by
  induction q with
  | nil => cases ht
  | cons a rest ih =>
    rcases List.mem_cons.mp ht with rfl | hmem
    · unfold findTask
      exact List.find?_cons_of_pos _ (by simp)
    · have hne : a.id ≠ t.id := by
        intro he
        have : a.id ∈ rest.map Task.id := he ▸ List.mem_map_of_mem Task.id hmem
        exact (List.nodup_cons.mp hnd).1 this
      unfold findTask
      rw [List.find?_cons_of_neg _ (by simp [hne])]
      exact ih (List.nodup_cons.mp hnd).2 hmem

theorem findTask_map {q : Queue} {f : Task → Task}
    (hid : ∀ u, (f u).id = u.id) (i : Nat) :
    findTask (q.map f) i = (findTask q i).map f := by
  unfold findTask
  rw [List.find?_map]
  have hp : ((fun t : Task => t.id == i) ∘ f) = (fun t : Task => t.id == i) := by
    funext u
    simp [Function.comp, hid]
  rw [hp]

theorem statusOf_map {q : Queue} {f : Task → Task}
    (hid : ∀ u, (f u).id = u.id) (i : Nat) :
    statusOf (q.map f) i = (findTask q i).map (fun t => (f t).status) := by
  unfold statusOf
  rw [findTask_map hid]
  cases findTask q i <;> rfl

theorem ids_map {q : Queue} {f : Task → Task}
    (hid : ∀ u, (f u).id = u.id) :
    (q.map f).map Task.id = q.map Task.id := by
  rw [List.map_map]
  exact List.map_congr_left (fun t _ => hid t)

theorem map_eq_self_mem {l : List Task} {f : Task → Task}
    (h : l.map f = l) : ∀ t ∈ l, f t = t := by
  induction l with
  | nil => intro t ht; cases ht
  | cons a rest ih =>
    intro t ht
    simp only [List.map_cons, List.cons.injEq] at h
    rcases List.mem_cons.mp ht with rfl | hmem
    · exact h.1
    · exact ih h.2 t hmem

/-! ## Monotone preservation of satisfied dependencies -/

theorem forall2_self {R : Task → Task → Prop} {l : List Task}
    (h : ∀ t ∈ l, R t t) : List.Forall₂ R l l := by
  induction l with
  | nil => exact List.Forall₂.nil
  | cons a rest ih =>
    exact List.Forall₂.cons (h a (by simp))
      (ih (fun t ht => h t (List.mem_cons_of_mem a ht)))

theorem forall2_map_self {R : Task → Task → Prop} {l : List Task}
    {f : Task → Task} (h : ∀ t ∈ l, R t (f t)) :
    List.Forall₂ R l (l.map f) := by
  induction l with
  | nil => exact List.Forall₂.nil
  | cons a rest ih =>
    exact List.Forall₂.cons (h a (by simp))
      (ih (fun t ht => h t (List.mem_cons_of_mem a ht)))

theorem depMet_mono {q q' : Queue} (h : List.Forall₂ IdSucc q q') {d : Nat}
    (hd : depMet q d = true) : depMet q' d = true := by
  induction h with
  | nil => simp [depMet, findTask] at hd
  | @cons a b l1 l2 hab htail ih =>
    unfold depMet findTask at hd ⊢
    by_cases hid : a.id = d
    · rw [List.find?_cons_of_pos _ (by simp [hid])] at hd
      rw [List.find?_cons_of_pos _ (by simp [hab.1, hid])]
      simp only [beq_iff_eq] at hd ⊢
      exact hab.2 hd
    · rw [List.find?_cons_of_neg _ (by simp [hid])] at hd
      rw [List.find?_cons_of_neg _ (by simp [hab.1, hid])]
      exact ih hd

theorem depsMet_mono {q q' : Queue} (h : List.Forall₂ IdSucc q q')
    {ds : List Nat} (hd : depsMet q ds = true) : depsMet q' ds = true := by
  unfold depsMet at hd ⊢
  rw [List.all_eq_true] at hd ⊢
  exact fun d hdm => depMet_mono h (hd d hdm)

theorem depMet_append {q r : Queue} {d : Nat}
    (hd : depMet q d = true) : depMet (q ++ r) d = true := by
  unfold depMet findTask at hd ⊢
  rw [List.find?_append]
  cases hfq : q.find? (fun t => t.id == d) with
  | none => rw [hfq] at hd; simp at hd
  | some u => rw [hfq] at hd; exact hd

theorem depsMet_append {q r : Queue} {ds : List Nat}
    (hd : depsMet q ds = true) : depsMet (q ++ r) ds = true := by
  unfold depsMet at hd ⊢
  rw [List.all_eq_true] at hd ⊢
  exact fun d hdm => depMet_append (hd d hdm)

/-! ## Preservation of the invariant -/

theorem findTask_unique {q : Queue} {i : Nat} {t0 t : Task}
    (hnd : (q.map Task.id).Nodup) (hfind : findTask q i = some t0)
    (ht : t ∈ q) (hid : t.id = i) : t = t0 := by
  have h := findTask_mem_nodup hnd ht
  rw [hid, hfind] at h
  exact (Option.some.inj h).symm

theorem wf_map {q : Queue} {f : Task → Task} (hwf : WF q)
    (hid : ∀ u, (f u).id = u.id)
    (hdeps : ∀ u, (f u).dependencies = u.dependencies)
    (hsucc : ∀ t ∈ q, t.status = .success → (f t).status = .success)
    (hinv2 : ∀ t ∈ q,
      ((f t).status = .pending ∨ (f t).status = .running ∨ (f t).status = .success) →
      depsMet q t.dependencies = true)
    (hinv3 : ∀ t ∈ q, (f t).claimedBy.isSome → (f t).status = .running) :
    WF (q.map f) := by
  obtain ⟨hnd, _, _⟩ := hwf
  have hmono : List.Forall₂ IdSucc q (q.map f) :=
    forall2_map_self (fun t ht => ⟨hid t, hsucc t ht⟩)
  refine ⟨by rwa [ids_map hid], ?_, ?_⟩
  · intro t' ht' hst
    obtain ⟨t, ht, rfl⟩ := List.mem_map.mp ht'
    rw [hdeps t]
    exact depsMet_mono hmono (hinv2 t ht hst)
  · intro t' ht' hcl
    obtain ⟨t, ht, rfl⟩ := List.mem_map.mp ht'
    exact hinv3 t ht hcl

theorem wf_promote {q : Queue} (hwf : WF q) : WF (promote q) := by
  obtain ⟨hnd, h2, h3⟩ := hwf
  unfold promote
  refine wf_map ⟨hnd, h2, h3⟩ ?_ ?_ ?_ ?_ ?_
  · intro u; split <;> rfl
  · intro u; split <;> rfl
  · intro t ht hs
    split
    · next hc => rw [hs] at hc; exact absurd hc.1 (by simp)
    · exact hs
  · intro t ht hst
    split at hst
    · next hc => exact hc.2
    · exact h2 t ht hst
  · intro t ht hcl
    by_cases hc : t.status = .waitingOnDependency ∧ depsMet q t.dependencies = true
    · rw [if_pos hc] at hcl
      have hr := h3 t ht hcl
      exact absurd (hc.1.symm.trans hr) (by simp)
    · rw [if_neg hc] at hcl ⊢
      exact h3 t ht hcl

theorem wf_markSkips {q : Queue} (hwf : WF q) : WF (markSkips q) := by
  obtain ⟨hnd, h2, h3⟩ := hwf
  unfold markSkips
  refine wf_map ⟨hnd, h2, h3⟩ ?_ ?_ ?_ ?_ ?_
  · intro u; unfold markOne; split <;> rfl
  · intro u; unfold markOne; split <;> rfl
  · intro t ht hs
    unfold markOne
    split
    · next hc =>
      rw [hs] at hc
      rcases hc.1 with h | h <;> simp at h
    · exact hs
  · intro t ht hst
    unfold markOne at hst
    split at hst
    · next => rcases hst with h | h | h <;> simp at h
    · exact h2 t ht hst
  · intro t ht hcl
    unfold markOne at hcl ⊢
    by_cases hc : (t.status = .pending ∨ t.status = .waitingOnDependency) ∧
        (t.dependencies.any fun d => ((statusOf q d).map TStatus.isBad).getD false) = true
    · rw [if_pos hc] at hcl
      have hr := h3 t ht hcl
      rcases hc.1 with h | h <;> exact absurd (h.symm.trans hr) (by simp)
    · rw [if_neg hc] at hcl ⊢
      exact h3 t ht hcl

theorem wf_cascadeN {q : Queue} (n : Nat) (hwf : WF q) : WF (cascadeN n q) := by
  induction n generalizing q with
  | zero => exact hwf
  | succ n ih => exact ih (wf_markSkips hwf)

theorem wf_cascade {q : Queue} (hwf : WF q) : WF (cascade q) :=
  wf_cascadeN _ hwf

theorem wf_setStatus_success {q : Queue} {i : Nat} {t0 : Task}
    (hwf : WF q) (hfind : findTask q i = some t0)
    (hrun : t0.status = .running) : WF (setStatus q i .success none) := by
  obtain ⟨hnd, h2, h3⟩ := hwf
  unfold setStatus
  refine wf_map ⟨hnd, h2, h3⟩ ?_ ?_ ?_ ?_ ?_
  · intro u; split <;> rfl
  · intro u; split <;> rfl
  · intro t ht hs
    by_cases hc : (t.id == i) = true
    · rw [if_pos hc]
    · rw [if_neg hc]; exact hs
  · intro t ht hst
    split at hst
    · next hc =>
      have hteq : t = t0 := findTask_unique hnd hfind ht (by simpa using hc)
      exact h2 t ht (Or.inr (Or.inl (hteq ▸ hrun)))
    · exact h2 t ht hst
  · intro t ht hcl
    by_cases hc : (t.id == i) = true
    · rw [if_pos hc] at hcl; simp at hcl
    · rw [if_neg hc] at hcl ⊢; exact h3 t ht hcl

theorem wf_setStatus_notsucc {q : Queue} {i : Nat} {t0 : Task} {s : TStatus}
    {reason : Option String}
    (hwf : WF q) (hfind : findTask q i = some t0)
    (hns : t0.status ≠ .success)
    (hsn : s ≠ .pending ∧ s ≠ .running ∧ s ≠ .success) :
    WF (setStatus q i s reason) := by
  obtain ⟨hnd, h2, h3⟩ := hwf
  unfold setStatus
  refine wf_map ⟨hnd, h2, h3⟩ ?_ ?_ ?_ ?_ ?_
  · intro u; split <;> rfl
  · intro u; split <;> rfl
  · intro t ht hs
    by_cases hc : (t.id == i) = true
    · have hteq : t = t0 := findTask_unique hnd hfind ht (by simpa using hc)
      exact absurd (hteq ▸ hs) hns
    · rw [if_neg hc]; exact hs
  · intro t ht hst
    split at hst
    · rcases hst with h | h | h
      · exact absurd h hsn.1
      · exact absurd h hsn.2.1
      · exact absurd h hsn.2.2
    · exact h2 t ht hst
  · intro t ht hcl
    by_cases hc : (t.id == i) = true
    · rw [if_pos hc] at hcl; simp at hcl
    · rw [if_neg hc] at hcl ⊢; exact h3 t ht hcl

/-! ## The shape of a successful Pop -/

theorem popScan_shape {q : Queue} {f : TFilter} {a now dur : Nat}
    {t : Task} {q' : Queue}
    (h : popScan q f a now dur = some (t, q')) :
    ∃ l1 u l2, q = l1 ++ u :: l2 ∧
      q' = l1 ++ claimTask u a now dur :: l2 ∧
      t = claimTask u a now dur ∧ u.status = .pending ∧ f u.labels = true ∧
      ∀ v ∈ l1, ¬(v.status = .pending ∧ f v.labels = true) := by
  induction q generalizing t q' with
  | nil => simp [popScan] at h
  | cons hd rest ih =>
    unfold popScan at h
    by_cases hc : hd.status = .pending ∧ f hd.labels = true
    · rw [if_pos hc] at h
      obtain ⟨ht, hq⟩ := Prod.mk.injEq _ _ _ _ ▸ Option.some.inj h
      exact ⟨[], hd, rest, rfl, by simp [hq.symm], ht.symm, hc.1, hc.2,
        by intro v hv; cases hv⟩
    · rw [if_neg hc] at h
      obtain ⟨⟨t0, q0⟩, hrest, heq⟩ := Option.map_eq_some'.mp h
      obtain ⟨ht, hq⟩ := Prod.mk.injEq _ _ _ _ ▸ heq
      obtain ⟨l1, u, l2, hq1, hq2, ht0, hst, hf, hnone⟩ := ih hrest
      refine ⟨hd :: l1, u, l2, by simp [hq1], ?_, ht ▸ ht0, hst, hf, ?_⟩
      · rw [← hq, hq2]; rfl
      · intro v hv
        rcases List.mem_cons.mp hv with rfl | hmem
        · exact hc
        · exact hnone v hmem

theorem popQ_shape {q : Queue} {f : TFilter} {a now dur : Nat}
    {t : Task} {q' : Queue}
    (h : popQ q f a now dur = some (t, q')) :
    ∃ l1 u l2, q = l1 ++ u :: l2 ∧
      q' = l1 ++ claimTask u a now dur :: l2 ∧
      t = claimTask u a now dur ∧ u.status = .pending ∧ f u.labels = true ∧
      ∀ v ∈ l1, ¬(v.status = .pending ∧ f v.labels = true) :=
  popScan_shape h

theorem popScan_none {q : Queue} {f : TFilter} {a now dur : Nat}
    (h : popScan q f a now dur = none) :
    ∀ v ∈ q, ¬(v.status = .pending ∧ f v.labels = true) := by
  induction q with
  | nil => intro v hv; cases hv
  | cons hd rest ih =>
    unfold popScan at h
    by_cases hc : hd.status = .pending ∧ f hd.labels = true
    · rw [if_pos hc] at h; cases h
    · rw [if_neg hc] at h
      intro v hv
      rcases List.mem_cons.mp hv with rfl | hmem
      · exact hc
      · exact ih (by simpa using h) v hmem

/-! ## Invariant preservation of the remaining operations -/

theorem wf_push {q q' : Queue} {i : Nat} {ls : List (String × String)}
    {ds : List Nat} {now : Nat} (hwf : WF q)
    (h : pushQ q i ls ds now = .ok q') : WF q' := by
  obtain ⟨hnd, h2, h3⟩ := hwf
  unfold pushQ at h
  by_cases hdup : q.any (fun t => t.id == i) = true
  · rw [if_pos hdup] at h; cases h
  · rw [if_neg hdup] at h
    obtain rfl := Except.ok.inj h
    have hni : i ∉ q.map Task.id := by
      intro hmem
      obtain ⟨t, ht, hti⟩ := List.mem_map.mp hmem
      exact hdup (List.any_eq_true.mpr ⟨t, ht, by simp [hti]⟩)
    refine ⟨?_, ?_, ?_⟩
    · rw [List.map_append]
      simp only [List.map_cons, List.map_nil]
      rw [List.nodup_append]
      exact ⟨hnd, List.nodup_singleton _, by
        intro x hx hy
        simp only [List.mem_singleton] at hy
        subst hy
        exact hni hx⟩
    · intro t ht hst
      rcases List.mem_append.mp ht with hmem | hmem
      · exact depsMet_append (h2 t hmem hst)
      · simp only [List.mem_singleton] at hmem
        subst hmem
        unfold freshTask at hst ⊢
        simp only at hst ⊢
        by_cases hmet : depsMet q ds = true
        · exact depsMet_append hmet
        · rw [if_neg hmet] at hst
          rcases hst with h | h | h <;> simp at h
    · intro t ht hcl
      rcases List.mem_append.mp ht with hmem | hmem
      · exact h3 t hmem hcl
      · simp only [List.mem_singleton] at hmem
        subst hmem
        simp [freshTask] at hcl

theorem forall2_append_tasks {R : Task → Task → Prop}
    {l1 l1' l2 l2' : List Task}
    (h1 : List.Forall₂ R l1 l1') (h2 : List.Forall₂ R l2 l2') :
    List.Forall₂ R (l1 ++ l2) (l1' ++ l2') := by
  induction h1 with
  | nil => exact h2
  | cons hab _ ih => exact List.Forall₂.cons hab ih

theorem wf_pop {q q' : Queue} {f : TFilter} {a now dur : Nat} {t : Task}
    (hwf : WF q) (h : popQ q f a now dur = some (t, q')) : WF q' := by
  obtain ⟨hnd, h2, h3⟩ := hwf
  obtain ⟨l1, u, l2, hq, hq', ht, hst, hf, hnone⟩ := popQ_shape h
  subst hq hq'
  have hids : ((l1 ++ claimTask u a now dur :: l2).map Task.id) =
      ((l1 ++ u :: l2).map Task.id) := by
    simp [claimTask]
  have hmono : List.Forall₂ IdSucc (l1 ++ u :: l2)
      (l1 ++ claimTask u a now dur :: l2) := by
    refine forall2_append_tasks (forall2_self (fun v _ => ⟨rfl, fun h => h⟩))
      (List.Forall₂.cons ?_ (forall2_self (fun v _ => ⟨rfl, fun h => h⟩)))
    refine ⟨rfl, fun hsu => ?_⟩
    rw [hst] at hsu; cases hsu
  refine ⟨by rw [hids]; exact hnd, ?_, ?_⟩
  · intro v hv hsv
    rcases List.mem_append.mp hv with hmem | hmem
    · exact depsMet_mono hmono
        (h2 v (List.mem_append.mpr (Or.inl hmem)) hsv)
    · rcases List.mem_cons.mp hmem with rfl | hmem2
      · show depsMet _ (claimTask u a now dur).dependencies = true
        have : (claimTask u a now dur).dependencies = u.dependencies := rfl
        rw [this]
        exact depsMet_mono hmono
          (h2 u (List.mem_append.mpr (Or.inr (List.mem_cons_self _ _)))
            (Or.inl hst))
      · exact depsMet_mono hmono
          (h2 v (List.mem_append.mpr (Or.inr (List.mem_cons_of_mem _ hmem2))) hsv)
  · intro v hv hcl
    rcases List.mem_append.mp hv with hmem | hmem
    · exact h3 v (List.mem_append.mpr (Or.inl hmem)) hcl
    · rcases List.mem_cons.mp hmem with rfl | hmem2
      · rfl
      · exact h3 v (List.mem_append.mpr (Or.inr (List.mem_cons_of_mem _ hmem2))) hcl

theorem wf_sweep {q : Queue} (hwf : WF q) (now limit : Nat) :
    WF (sweepQ q now limit) := by
  obtain ⟨hnd, h2, h3⟩ := hwf
  unfold sweepQ
  refine wf_map ⟨hnd, h2, h3⟩ ?_ ?_ ?_ ?_ ?_
  · intro u; split <;> [skip; rfl]; split <;> rfl
  · intro u; split <;> [skip; rfl]; split <;> rfl
  · intro t ht hs
    by_cases hc : t.status = .running ∧ t.leaseExpiresAt < now
    · exact absurd (hs.symm.trans hc.1) (by simp)
    · rw [if_neg hc]; exact hs
  · intro t ht hst
    by_cases hc : t.status = .running ∧ t.leaseExpiresAt < now
    · exact h2 t ht (Or.inr (Or.inl hc.1))
    · rw [if_neg hc] at hst
      exact h2 t ht hst
  · intro t ht hcl
    by_cases hc : t.status = .running ∧ t.leaseExpiresAt < now
    · rw [if_pos hc] at hcl
      by_cases hl : t.requeueCount < limit
      · rw [if_pos hl] at hcl; simp at hcl
      · rw [if_neg hl] at hcl; simp at hcl
    · rw [if_neg hc] at hcl ⊢
      exact h3 t ht hcl

theorem wf_extend {q q' : Queue} {i a now dur : Nat} (hwf : WF q)
    (h : extendQ q i a now dur = .ok q') : WF q' := by
  obtain ⟨hnd, h2, h3⟩ := hwf
  unfold extendQ at h
  split at h
  · cases h
  · split at h
    · cases h
    · split at h
      · cases h
      · obtain rfl := Except.ok.inj h
        refine wf_map ⟨hnd, h2, h3⟩ ?_ ?_ ?_ ?_ ?_
        · intro u; split <;> rfl
        · intro u; split <;> rfl
        · intro u hu hs
          by_cases hc : (u.id == i) = true
          · rw [if_pos hc]; exact hs
          · rw [if_neg hc]; exact hs
        · intro u hu hst
          split at hst <;> exact h2 u hu hst
        · intro u hu hcl2
          by_cases hc : (u.id == i) = true
          · rw [if_pos hc] at hcl2 ⊢; exact h3 u hu hcl2
          · rw [if_neg hc] at hcl2 ⊢; exact h3 u hu hcl2

theorem wf_done {q q' : Queue} {i agent : Nat} {r : DoneResult} (hwf : WF q)
    (h : doneQ q i agent r = .ok q') : WF q' := by
  unfold doneQ at h
  split at h
  · cases h
  · next t hfind =>
    split at h
    · cases h
    · next hterm =>
      split at h
      · cases h
      · next hcl =>
        push_neg at hcl
        have hrun : t.status = .running := by
          refine hwf.2.2 t (findTask_eq_some hfind).1 ?_
          rw [hcl]; rfl
        split at h
        · obtain rfl := Except.ok.inj h
          exact wf_promote (wf_setStatus_success hwf hfind hrun)
        · obtain rfl := Except.ok.inj h
          refine wf_cascade (wf_setStatus_notsucc hwf hfind ?_ (by simp))
          rw [hrun]; simp

theorem wf_evict {q : Queue} (hwf : WF q) (i : Nat) : WF (evictQ q i) := by
  unfold evictQ
  split
  · exact hwf
  · next t hfind =>
    split
    · exact hwf
    · next hterm =>
      refine wf_cascade (wf_setStatus_notsucc hwf hfind ?_ (by simp))
      intro hs
      rw [hs] at hterm
      exact hterm rfl

theorem wf_step {q q' : Queue} (hwf : WF q) (h : StepOp q q') : WF q' := by
  cases h with
  | push hp => exact wf_push hwf hp
  | pop hp => exact wf_pop hwf hp
  | done hp => exact wf_done hwf hp
  | evict i => exact wf_evict hwf i
  | extend hp => exact wf_extend hwf hp
  | sweep now limit => exact wf_sweep hwf now limit

theorem wf_nil : WF [] := by
  refine ⟨List.nodup_nil, ?_, ?_⟩ <;> intro t ht <;> cases ht

theorem wf_reach {q : Queue} (h : Reach q) : WF q := by
  induction h with
  | refl => exact wf_nil
  | tail _ hstep ih => exact wf_step ih hstep

/-! ## Status transfer through the operations -/

theorem isBad_isTerminal {s : TStatus} (h : s.isBad = true) :
    s.isTerminal = true := by
  cases s <;> simp [TStatus.isBad, TStatus.isTerminal] at h ⊢

theorem findTask_append_left {q r : Queue} {i : Nat} {t : Task}
    (h : findTask q i = some t) : findTask (q ++ r) i = some t := by
  unfold findTask at h ⊢
  rw [List.find?_append, h]
  rfl

theorem findTask_replace {l1 l2 : Queue} {u : Task} (v : Task) {i : Nat}
    {t : Task} (hid : v.id = u.id)
    (h : findTask (l1 ++ u :: l2) i = some t) (hne : t ≠ u) :
    findTask (l1 ++ v :: l2) i = some t := by
  unfold findTask at h ⊢
  rw [List.find?_append] at h ⊢
  cases h1 : l1.find? (fun v => v.id == i) with
  | some v => rw [h1] at h; rw [Option.or] at h ⊢; exact h
  | none =>
    rw [h1] at h
    rw [Option.or] at h ⊢
    by_cases hu : (u.id == i) = true
    · rw [List.find?_cons_of_pos (p := fun t : Task => t.id == i) _ hu] at h
      exact absurd (Option.some.inj h).symm hne
    · rw [List.find?_cons_of_neg (p := fun t : Task => t.id == i) _ hu] at h
      rw [List.find?_cons_of_neg (p := fun t : Task => t.id == i) _
        (by simpa [hid] using hu)]
      exact h

/-- Through one cascade round, a task's entry keeps its id, labels and
dependencies; its status is unchanged or Skipped. -/
theorem findTask_markSkips {q : Queue} {i : Nat} {t : Task}
    (h : findTask q i = some t) :
    ∃ u, findTask (markSkips q) i = some u ∧ u.id = t.id ∧
      u.dependencies = t.dependencies ∧
      (u.status = t.status ∨ u.status = .skipped) := by
  unfold markSkips
  rw [findTask_map (by intro u; unfold markOne; split <;> rfl), h]
  refine ⟨markOne q t, rfl, ?_, ?_, ?_⟩ <;>
    unfold markOne <;> split <;> simp

theorem findTask_cascadeN (n : Nat) {q : Queue} {i : Nat} {t : Task}
    (h : findTask q i = some t) :
    ∃ u, findTask (cascadeN n q) i = some u ∧ u.id = t.id ∧
      u.dependencies = t.dependencies ∧
      (u.status = t.status ∨ u.status = .skipped) := by
  induction n generalizing q t with
  | zero => exact ⟨t, h, rfl, rfl, Or.inl rfl⟩
  | succ n ih =>
    obtain ⟨u1, h1, hid1, hdep1, hst1⟩ := findTask_markSkips h
    obtain ⟨u, h2, hid2, hdep2, hst2⟩ := ih h1
    refine ⟨u, h2, hid2.trans hid1, hdep2.trans hdep1, ?_⟩
    rcases hst2 with h' | h'
    · rcases hst1 with h'' | h''
      · exact Or.inl (h'.trans h'')
      · exact Or.inr (h'.trans h'')
    · exact Or.inr h'

theorem findTask_cascade {q : Queue} {i : Nat} {t : Task}
    (h : findTask q i = some t) :
    ∃ u, findTask (cascade q) i = some u ∧ u.id = t.id ∧
      u.dependencies = t.dependencies ∧
      (u.status = t.status ∨ u.status = .skipped) :=
  findTask_cascadeN _ h

/-! ## The cascade reaches its fixpoint -/

theorem countP_lt_of {l : List Task} {f : Task → Task}
    (hle : ∀ a ∈ l, isPW (f a) = true → isPW a = true)
    (hex : ∃ a ∈ l, isPW a = true ∧ isPW (f a) = false) :
    (l.map f).countP isPW < l.countP isPW := by
  induction l with
  | nil => obtain ⟨a, ha, _⟩ := hex; cases ha
  | cons b rest ih =>
    rw [List.map_cons, List.countP_cons, List.countP_cons]
    obtain ⟨a, ha, hpa, hpfa⟩ := hex
    rcases List.mem_cons.mp ha with rfl | hmem
    · rw [hpa, hpfa]
      rw [if_neg (by simp), if_pos rfl]
      have hrest : (rest.map f).countP isPW ≤ rest.countP isPW := by
        rw [List.countP_map]
        apply List.countP_mono_left
        intro x hx hfx
        exact hle x (List.mem_cons_of_mem _ hx) hfx
      omega
    · have hlt := ih (fun x hx => hle x (List.mem_cons_of_mem _ hx))
        ⟨a, hmem, hpa, hpfa⟩
      have hif : (if isPW (f b) = true then 1 else 0) ≤
          (if isPW b = true then 1 else 0) := by
        by_cases hb : isPW (f b) = true
        · rw [if_pos hb, if_pos (hle b (by simp) hb)]
        · rw [if_neg hb]; omega
      omega

theorem map_self_of_mem {l : List Task} {f : Task → Task}
    (h : ∀ a ∈ l, f a = a) : l.map f = l := by
  rw [List.map_congr_left h]
  exact List.map_id l

theorem markOne_pw {q : Queue} {a : Task} (h : isPW (markOne q a) = true) :
    isPW a = true := by
  unfold markOne at h
  split at h
  · simp [isPW] at h
  · exact h

theorem markSkips_self_of_no_pw {q : Queue} (h : ∀ a ∈ q, isPW a = false) :
    markSkips q = q := by
  unfold markSkips
  apply map_self_of_mem
  intro a ha
  unfold markOne
  rw [if_neg]
  intro hc
  have := h a ha
  rcases hc.1 with h' | h' <;> simp [isPW, h'] at this

theorem markSkips_progress {q : Queue} (h : markSkips q ≠ q) :
    pwCount (markSkips q) < pwCount q := by
  unfold markSkips at h ⊢
  unfold pwCount
  have hex : ∃ a ∈ q, isPW a = true ∧ isPW (markOne q a) = false := by
    by_contra hno
    push_neg at hno
    apply h
    apply map_self_of_mem
    intro a ha
    unfold markOne
    by_cases hc : (a.status = .pending ∨ a.status = .waitingOnDependency) ∧
        (a.dependencies.any fun d => ((statusOf q d).map TStatus.isBad).getD false) = true
    · exfalso
      have hpa : isPW a = true := by
        rcases hc.1 with h' | h' <;> simp [isPW, h']
      have h2 := hno a ha hpa
      have h2t : isPW (markOne q a) = true := by
        cases hb : isPW (markOne q a)
        · exact absurd hb h2
        · rfl
      unfold markOne at h2t
      rw [if_pos hc] at h2t
      simp [isPW] at h2t
    · rw [if_neg hc]
  exact countP_lt_of (fun a _ hfa => markOne_pw hfa) hex

theorem cascadeN_of_fix {q : Queue} (h : markSkips q = q) (n : Nat) :
    cascadeN n q = q := by
  induction n with
  | zero => rfl
  | succ n ih =>
    show cascadeN n (markSkips q) = q
    rw [h]
    exact ih

theorem cascadeN_fixpoint : ∀ (n : Nat) (q : Queue), pwCount q ≤ n →
    markSkips (cascadeN n q) = cascadeN n q := by
  intro n
  induction n with
  | zero =>
    intro q hq
    have h0 : ∀ a ∈ q, isPW a = false := by
      intro a ha
      by_contra hc
      have : 0 < pwCount q := by
        unfold pwCount
        exact List.countP_pos_iff.mpr ⟨a, ha, by simpa using hc⟩
      omega
    exact markSkips_self_of_no_pw h0
  | succ n ih =>
    intro q hq
    show markSkips (cascadeN n (markSkips q)) = cascadeN n (markSkips q)
    by_cases hfix : markSkips q = q
    · rw [hfix, cascadeN_of_fix hfix]
      exact hfix
    · exact ih _ (by have := markSkips_progress hfix; omega)

theorem cascade_fixpoint (q : Queue) : markSkips (cascade q) = cascade q := by
  unfold cascade
  exact cascadeN_fixpoint q.length q (List.countP_le_length _)

theorem fixpoint_no_badDep {q : Queue} (hfix : markSkips q = q) {j : Nat}
    {t : Task} (hfind : findTask q j = some t)
    (hpw : t.status = .pending ∨ t.status = .waitingOnDependency) :
    (t.dependencies.any fun d => ((statusOf q d).map TStatus.isBad).getD false) = false := by
  have ht : t ∈ q := (findTask_eq_some hfind).1
  unfold markSkips at hfix
  have hself := map_eq_self_mem hfix t ht
  unfold markOne at hself
  by_contra hbad
  rw [Bool.not_eq_false] at hbad
  rw [if_pos ⟨hpw, hbad⟩] at hself
  have := congrArg Task.status hself
  simp only at this
  rcases hpw with h' | h' <;> rw [h'] at this <;> cases this

/-! ## Transfer of the dependency relation -/

theorem dependent_map_mp {q : Queue} {f : Task → Task}
    (hid : ∀ u, (f u).id = u.id)
    (hdeps : ∀ u, (f u).dependencies = u.dependencies)
    {a b : Nat} (h : Dependent (q.map f) a b) : Dependent q a b := by
  induction h with
  | @direct j t hfind hmem =>
    rw [findTask_map hid] at hfind
    obtain ⟨t0, hf0, rfl⟩ := Option.map_eq_some'.mp hfind
    exact Dependent.direct hf0 (by rw [hdeps] at hmem; exact hmem)
  | @tail k j t hdep hfind hmem ih =>
    rw [findTask_map hid] at hfind
    obtain ⟨t0, hf0, rfl⟩ := Option.map_eq_some'.mp hfind
    exact Dependent.tail ih hf0 (by rw [hdeps] at hmem; exact hmem)

theorem dependent_map_mpr {q : Queue} {f : Task → Task}
    (hid : ∀ u, (f u).id = u.id)
    (hdeps : ∀ u, (f u).dependencies = u.dependencies)
    {a b : Nat} (h : Dependent q a b) : Dependent (q.map f) a b := by
  induction h with
  | @direct j t hfind hmem =>
    refine Dependent.direct (t := f t) ?_ (by rw [hdeps]; exact hmem)
    rw [findTask_map hid, hfind]
    rfl
  | @tail k j t hdep hfind hmem ih =>
    refine Dependent.tail ih (t := f t) ?_ (by rw [hdeps]; exact hmem)
    rw [findTask_map hid, hfind]
    rfl

/-! ## Dependents of an unfinished task are not dispatchable -/

theorem dependents_not_ready {q : Queue} (hwf : WF q) {r : Nat} {tr : Task}
    (hfr : findTask q r = some tr) (hrs : tr.status ≠ .success) :
    ∀ j, Dependent q r j → ∃ tj, findTask q j = some tj ∧
      (tj.status = .waitingOnDependency ∨ tj.status.isBad = true) := by
  intro j h
  induction h with
  | @direct j t hfind hmem =>
    refine ⟨t, hfind, ?_⟩
    by_cases hrel : t.status = .pending ∨ t.status = .running ∨ t.status = .success
    · exfalso
      have hdm := hwf.2.1 t (findTask_eq_some hfind).1 hrel
      unfold depsMet at hdm
      rw [List.all_eq_true] at hdm
      have hdr := hdm r hmem
      unfold depMet at hdr
      rw [hfr] at hdr
      exact hrs (by simpa using hdr)
    · cases hs : t.status
      · exact absurd (Or.inl hs) hrel
      · exact Or.inl rfl
      · exact absurd (Or.inr (Or.inl hs)) hrel
      · exact absurd (Or.inr (Or.inr hs)) hrel
      · exact Or.inr rfl
      · exact Or.inr rfl
      · exact Or.inr rfl
  | @tail k j t hdep hfind hmem ih =>
    obtain ⟨tk, hfk, hcase⟩ := ih
    refine ⟨t, hfind, ?_⟩
    by_cases hrel : t.status = .pending ∨ t.status = .running ∨ t.status = .success
    · exfalso
      have hdm := hwf.2.1 t (findTask_eq_some hfind).1 hrel
      unfold depsMet at hdm
      rw [List.all_eq_true] at hdm
      have hdr := hdm k hmem
      unfold depMet at hdr
      rw [hfk] at hdr
      have hks : tk.status = .success := by simpa using hdr
      rcases hcase with h' | h'
      · rw [hks] at h'; cases h'
      · rw [hks] at h'; cases h'
    · cases hs : t.status
      · exact absurd (Or.inl hs) hrel
      · exact Or.inl rfl
      · exact absurd (Or.inr (Or.inl hs)) hrel
      · exact absurd (Or.inr (Or.inr hs)) hrel
      · exact Or.inr rfl
      · exact Or.inr rfl
      · exact Or.inr rfl

/-! ## The cascade marks every transitive dependent -/

theorem cascade_marks {q : Queue} {r : Nat} {tr : Task}
    (hfr : findTask q r = some tr) (hbad : tr.status.isBad = true)
    (hdeps : ∀ j, Dependent q r j → ∃ tj, findTask q j = some tj ∧
      (tj.status = .pending ∨ tj.status = .waitingOnDependency ∨
        tj.status.isBad = true)) :
    ∀ j, Dependent q r j → ∃ u, findTask (cascade q) j = some u ∧
      u.status.isBad = true := by
  have hfix := cascade_fixpoint q
  obtain ⟨ur, hfur, _, _, hustr⟩ := findTask_cascade hfr
  have hurbad : ur.status.isBad = true := by
    rcases hustr with h' | h'
    · rw [h']; exact hbad
    · rw [h']; rfl
  intro j h
  induction h with
  | @direct j t hfind hmem =>
    obtain ⟨u, hfu, _, hudep, hust⟩ := findTask_cascade hfind
    refine ⟨u, hfu, ?_⟩
    rcases hust with h' | h'
    swap
    · rw [h']; rfl
    obtain ⟨tj, hftj, hcase⟩ := hdeps j (Dependent.direct hfind hmem)
    have hteq : tj = t := by rw [hfind] at hftj; exact (Option.some.inj hftj).symm
    subst hteq
    rcases hcase with hw | hw | hw
    case inr.inr => rw [h', hw]
    all_goals
      exfalso
      have hpw : u.status = .pending ∨ u.status = .waitingOnDependency := by
        rw [h', hw]
        first
          | exact Or.inl rfl
          | exact Or.inr rfl
      have hnone := fixpoint_no_badDep hfix hfu hpw
      have hsome : (u.dependencies.any fun d =>
          ((statusOf (cascade q) d).map TStatus.isBad).getD false) = true := by
        rw [List.any_eq_true]
        refine ⟨r, by rw [hudep]; exact hmem, ?_⟩
        unfold statusOf
        rw [hfur]
        simpa using hurbad
      rw [hnone] at hsome
      cases hsome
  | @tail k j t hdep hfind hmem ih =>
    obtain ⟨uk, hfuk, hukbad⟩ := ih
    obtain ⟨u, hfu, _, hudep, hust⟩ := findTask_cascade hfind
    refine ⟨u, hfu, ?_⟩
    rcases hust with h' | h'
    swap
    · rw [h']; rfl
    obtain ⟨tj, hftj, hcase⟩ := hdeps j (Dependent.tail hdep hfind hmem)
    have hteq : tj = t := by rw [hfind] at hftj; exact (Option.some.inj hftj).symm
    subst hteq
    rcases hcase with hw | hw | hw
    case inr.inr => rw [h', hw]
    all_goals
      exfalso
      have hpw : u.status = .pending ∨ u.status = .waitingOnDependency := by
        rw [h', hw]
        first
          | exact Or.inl rfl
          | exact Or.inr rfl
      have hnone := fixpoint_no_badDep hfix hfu hpw
      have hsome : (u.dependencies.any fun d =>
          ((statusOf (cascade q) d).map TStatus.isBad).getD false) = true := by
        rw [List.any_eq_true]
        refine ⟨k, by rw [hudep]; exact hmem, ?_⟩
        unfold statusOf
        rw [hfuk]
        simpa using hukbad
      rw [hnone] at hsome
      cases hsome

/-! ## A Skipped task stays Skipped and is never dispatched -/

theorem statusOf_skipped_map {q : Queue} {f : Task → Task}
    (hid : ∀ u, (f u).id = u.id) {i : Nat}
    (hstat : ∀ t, findTask q i = some t → t.status = .skipped →
      (f t).status = .skipped)
    (h : statusOf q i = some .skipped) :
    statusOf (q.map f) i = some .skipped := by
  unfold statusOf at h ⊢
  rw [findTask_map hid]
  cases hf : findTask q i with
  | none => rw [hf] at h; cases h
  | some t =>
    rw [hf] at h
    have ht : t.status = .skipped := Option.some.inj h
    show some ((f t).status) = some TStatus.skipped
    rw [hstat t hf ht]

theorem statusOf_skipped_cascade {q : Queue} {i : Nat}
    (h : statusOf q i = some .skipped) :
    statusOf (cascade q) i = some .skipped := by
  unfold statusOf at h ⊢
  cases hf : findTask q i with
  | none => rw [hf] at h; cases h
  | some t =>
    rw [hf] at h
    have ht : t.status = .skipped := Option.some.inj h
    obtain ⟨u, hfu, _, _, hust⟩ := findTask_cascade hf
    rw [hfu]
    show some u.status = some TStatus.skipped
    rcases hust with h' | h'
    · rw [h', ht]
    · rw [h']

theorem skipped_push {q q' : Queue} {i0 : Nat} {ls : List (String × String)}
    {ds : List Nat} {now : Nat} {i : Nat}
    (hs : statusOf q i = some .skipped)
    (h : pushQ q i0 ls ds now = .ok q') : statusOf q' i = some .skipped := by
  unfold pushQ at h
  split at h
  · cases h
  · obtain rfl := Except.ok.inj h
    unfold statusOf at hs ⊢
    cases hf : findTask q i with
    | none => rw [hf] at hs; cases hs
    | some t =>
      rw [hf] at hs
      rw [findTask_append_left hf]
      exact hs

theorem skipped_setStatus {q : Queue} {j : Nat} {s : TStatus}
    {reason : Option String} {t0 : Task} {i : Nat}
    (hf0 : findTask q j = some t0) (ht0 : t0.status.isTerminal = false)
    (hs : statusOf q i = some .skipped) :
    statusOf (setStatus q j s reason) i = some .skipped := by
  unfold setStatus
  refine statusOf_skipped_map (by intro u; split <;> rfl) ?_ hs
  intro t hf ht
  have hne : t.id ≠ j := by
    intro he
    have : findTask q j = some t := by
      rw [← he]
      rw [(findTask_eq_some hf).2]
      exact hf
    rw [hf0] at this
    obtain rfl := Option.some.inj this
    rw [ht] at ht0
    cases ht0
  rw [if_neg (by simpa using hne)]
  exact ht

theorem skipped_promote {q : Queue} {i : Nat}
    (hs : statusOf q i = some .skipped) :
    statusOf (promote q) i = some .skipped := by
  unfold promote
  refine statusOf_skipped_map (by intro u; split <;> rfl) ?_ hs
  intro t hf ht
  rw [if_neg]
  · exact ht
  · intro hc
    rw [ht] at hc
    rcases hc with ⟨h', _⟩
    cases h'

theorem skipped_sweep {q : Queue} {now limit : Nat} {i : Nat}
    (hs : statusOf q i = some .skipped) :
    statusOf (sweepQ q now limit) i = some .skipped := by
  unfold sweepQ
  refine statusOf_skipped_map
    (by intro u; split; · split <;> rfl
        · rfl) ?_ hs
  intro t hf ht
  rw [if_neg]
  · exact ht
  · intro hc
    rw [ht] at hc
    rcases hc with ⟨h', _⟩
    cases h'

theorem skipped_step {q q' : Queue} {i : Nat}
    (hs : statusOf q i = some .skipped) (h : StepOp q q') :
    statusOf q' i = some .skipped := by
  cases h with
  | push hp => exact skipped_push hs hp
  | pop hp =>
    rename_i f0 a0 n0 d0 t0
    obtain ⟨l1, u, l2, hq, hq', _, hst, _, _⟩ := popQ_shape hp
    subst hq hq'
    unfold statusOf at hs ⊢
    cases hf : findTask (l1 ++ u :: l2) i with
    | none => rw [hf] at hs; cases hs
    | some t =>
      rw [hf] at hs
      have ht : t.status = .skipped := Option.some.inj hs
      have hne : t ≠ u := by
        intro he
        rw [he, hst] at ht
        cases ht
      rw [findTask_replace (claimTask u a0 n0 d0)
        (show (claimTask u a0 n0 d0).id = u.id from rfl) hf hne]
      show some t.status = some TStatus.skipped
      rw [ht]
  | done hp =>
    unfold doneQ at hp
    split at hp
    · cases hp
    · next t0 hf0 =>
      split at hp
      · cases hp
      · next hterm =>
        split at hp
        · cases hp
        · split at hp
          · obtain rfl := Except.ok.inj hp
            exact skipped_promote
              (skipped_setStatus hf0 (by simpa using hterm) hs)
          · obtain rfl := Except.ok.inj hp
            exact statusOf_skipped_cascade
              (skipped_setStatus hf0 (by simpa using hterm) hs)
  | evict j =>
    unfold evictQ
    split
    · exact hs
    · next t0 hf0 =>
      split
      · exact hs
      · next hterm =>
        exact statusOf_skipped_cascade
          (skipped_setStatus hf0 (by simpa using hterm) hs)
  | extend hp =>
    rename_i j0 ag0 n0 d0
    unfold extendQ at hp
    split at hp
    · cases hp
    · split at hp
      · cases hp
      · split at hp
        · cases hp
        · obtain rfl := Except.ok.inj hp
          refine statusOf_skipped_map (by intro u; split <;> rfl) ?_ hs
          intro t hf ht
          by_cases hc : (t.id == j0) = true
          · rw [if_pos hc]; exact ht
          · rw [if_neg hc]; exact ht
  | sweep now limit => exact skipped_sweep hs

theorem steps_trans_wf {q q' : Queue} (hwf : WF q)
    (h : Relation.ReflTransGen StepOp q q') : WF q' := by
  induction h with
  | refl => exact hwf
  | tail _ hstep ih => exact wf_step ih hstep

theorem skipped_steps {q q' : Queue} {i : Nat}
    (hs : statusOf q i = some .skipped)
    (h : Relation.ReflTransGen StepOp q q') :
    statusOf q' i = some .skipped := by
  induction h with
  | refl => exact hs
  | tail _ hstep ih => exact skipped_step ih hstep

theorem pop_not_nonpending {q : Queue} (hnd : (q.map Task.id).Nodup)
    {i : Nat} {s : TStatus} (hs : statusOf q i = some s)
    (hnp : s ≠ .pending) {f : TFilter} {a now dur : Nat} {t : Task}
    {q' : Queue} (h : popQ q f a now dur = some (t, q')) : t.id ≠ i := by
  obtain ⟨l1, u, l2, hq, _, ht, hst, _, _⟩ := popQ_shape h
  intro hti
  have hui : u.id = i := by
    rw [← hti, ht]; rfl
  have hu : u ∈ q := by
    rw [hq]; exact List.mem_append.mpr (Or.inr (List.mem_cons_self _ _))
  have := findTask_mem_nodup hnd hu
  rw [hui] at this
  unfold statusOf at hs
  rw [this] at hs
  have : u.status = s := Option.some.inj hs
  rw [hst] at this
  exact hnp this.symm

/-! ## Reachability of the example states -/

theorem reach_ex1 : Reach [exA0] :=
  Relation.ReflTransGen.single
    (StepOp.push (show pushQ [] 1 [] [] 0 = .ok [exA0] from rfl))

theorem reach_ex2 : Reach [exA0, exB0] :=
  Relation.ReflTransGen.tail reach_ex1
    (StepOp.push (show pushQ [exA0] 2 [] [1] 1 = .ok [exA0, exB0] from rfl))

theorem reach_ex3 : Reach [exA1, exB0] :=
  Relation.ReflTransGen.tail reach_ex2
    (StepOp.pop (show popQ [exA0, exB0] exTrue 7 2 10 =
      some (exA1, [exA1, exB0]) from rfl))

theorem reach_ex4 : Reach [exA2, exB1] :=
  Relation.ReflTransGen.tail reach_ex3
    (StepOp.done (show doneQ [exA1, exB0] 1 7 .success = .ok [exA2, exB1]
      from rfl))

theorem reach_ex5 : Reach [exA1] :=
  Relation.ReflTransGen.tail reach_ex1
    (StepOp.pop (show popQ [exA0] exTrue 7 2 10 = some (exA1, [exA1])
      from rfl))

theorem reach_ex6 : Reach [exA1, exC1] :=
  Relation.ReflTransGen.tail reach_ex5
    (StepOp.push (show pushQ [exA1] 3 [] [] 5 = .ok [exA1, exC1]
      from rfl))

/-! ## C5 -/

/-- C5: `Push` inserts with status Pending when the dependency set is
empty or every dependency is already Success (the empty set satisfies
`depsMet` vacuously), with status WaitingOnDependency when some
dependency is not yet Success, and fails with `DuplicateID` when the id
is already present. -/
theorem c5_push_status (q : Queue) (i : Nat) (ls : List (String × String))
    (ds : List Nat) (now : Nat) :
    (q.any (fun t => t.id == i) = true →
      pushQ q i ls ds now = .error .duplicateID) ∧
    (q.any (fun t => t.id == i) = false → depsMet q ds = true →
      pushQ q i ls ds now = .ok (q ++
        [{ id := i, labels := ls, dependencies := ds, status := .pending,
           enqueuedAt := now, claimedBy := none, leaseExpiresAt := 0,
           requeueCount := 0, failReason := none }])) ∧
    (q.any (fun t => t.id == i) = false → depsMet q ds = false →
      pushQ q i ls ds now = .ok (q ++
        [{ id := i, labels := ls, dependencies := ds,
           status := .waitingOnDependency, enqueuedAt := now,
           claimedBy := none, leaseExpiresAt := 0, requeueCount := 0,
           failReason := none }])) ∧
    (ds = [] → depsMet q ds = true) := by
  refine ⟨?_, ?_, ?_, ?_⟩
  · intro hdup
    unfold pushQ
    rw [if_pos hdup]
  · intro hdup hmet
    unfold pushQ freshTask
    rw [if_neg (by simp [hdup]), if_pos hmet]
  · intro hdup hmet
    unfold pushQ freshTask
    rw [if_neg (by simp [hdup]), if_neg (by simp [hmet])]
  · intro hds
    rw [hds]
    rfl

/-- C5 witness: pushing id 1 with no dependencies into the empty queue
yields a Pending task; a second push of id 1 fails with DuplicateID. -/
theorem c5_witness :
    pushQ [] 1 [] [] 0 = .ok [exA0] ∧
    pushQ [exA0] 1 [] [] 5 = .error .duplicateID := by
  constructor
  · have h := (c5_push_status [] 1 [] [] 0).2.1 (by rfl) (by rfl)
    exact h
  · exact (c5_push_status [exA0] 1 [] [] 5).1 (by rfl)

/-! ## C6 -/

/-- C6: the lease sweep returns every Running task whose lease deadline
has passed to Pending (requeued, with its requeue count incremented) as
long as the requeue count is below the configured limit, and transitions
it to Failure with reason `AgentLost` once the limit is reached. -/
theorem c6_lease_sweep {q : Queue} (hnd : (q.map Task.id).Nodup)
    (now limit : Nat) {t : Task} (ht : t ∈ q) (hrun : t.status = .running)
    (hexp : t.leaseExpiresAt < now) :
    (t.requeueCount < limit →
      findTask (sweepQ q now limit) t.id =
        some ⟨t.id, t.labels, t.dependencies, .pending, t.enqueuedAt, none,
          t.leaseExpiresAt, t.requeueCount + 1, t.failReason⟩) ∧
    (limit ≤ t.requeueCount →
      findTask (sweepQ q now limit) t.id =
        some ⟨t.id, t.labels, t.dependencies, .failure, t.enqueuedAt, none,
          t.leaseExpiresAt, t.requeueCount, some "AgentLost"⟩) := by
  have hfind : findTask q t.id = some t := findTask_mem_nodup hnd ht
  have hid : ∀ u : Task,
      ((if u.status = .running ∧ u.leaseExpiresAt < now then
          if u.requeueCount < limit then
            { u with status := TStatus.pending, claimedBy := none,
                     requeueCount := u.requeueCount + 1 }
          else
            { u with status := TStatus.failure, claimedBy := none,
                     failReason := some "AgentLost" }
        else u)).id = u.id := by
    intro u; split
    · split <;> rfl
    · rfl
  constructor
  · intro hcnt
    unfold sweepQ
    rw [findTask_map hid, hfind]
    simp only [Option.map_some']
    rw [if_pos ⟨hrun, hexp⟩, if_pos hcnt]
  · intro hcnt
    unfold sweepQ
    rw [findTask_map hid, hfind]
    simp only [Option.map_some']
    rw [if_pos ⟨hrun, hexp⟩, if_neg (by omega)]

/-- C6 witness: a Running task with lease deadline 3 swept at time 4 is
requeued as Pending while under the limit, and becomes an `AgentLost`
Failure when its requeue count has reached the limit. -/
theorem c6_witness :
    findTask (sweepQ [exR] 4 1) 5 =
      some ⟨5, [], [], .pending, 0, none, 3, 1, none⟩ ∧
    findTask (sweepQ [(⟨5, [], [], .running, 0, some 7, 3, 1, none⟩ : Task)] 4 1) 5 =
      some ⟨5, [], [], .failure, 0, none, 3, 1, some "AgentLost"⟩ := by
  constructor
  · have h := c6_lease_sweep (q := [exR]) (t := exR) (by decide) 4 1
      (by decide) rfl (by decide)
    exact h.1 (by decide)
  · have h := c6_lease_sweep
      (q := [(⟨5, [], [], .running, 0, some 7, 3, 1, none⟩ : Task)])
      (t := ⟨5, [], [], .running, 0, some 7, 3, 1, none⟩)
      (by decide) 4 1 (by decide) rfl (by decide)
    exact h.2 (by decide)

/-! ## C7 -/

/-- C7: `Done` on an id that was never pushed or whose task is already
terminal fails with `UnknownTask` (leaving the queue unchanged), and
`Evict` on a missing or already-terminal task is an idempotent no-op
returning the queue unchanged, so no duplicate propagation occurs. -/
theorem c7_terminal_idempotent (q : Queue) (i : Nat) :
    (∀ t, findTask q i = some t → t.status.isTerminal = true →
      (∀ agent r, doneQ q i agent r = .error .unknownTask) ∧
      evictQ q i = q) ∧
    (findTask q i = none →
      (∀ agent r, doneQ q i agent r = .error .unknownTask) ∧
      evictQ q i = q) := by
  constructor
  · intro t hfind hterm
    constructor
    · intro agent r
      unfold doneQ
      rw [hfind]
      show (if t.status.isTerminal then _ else _) = _
      rw [if_pos hterm]
    · unfold evictQ
      rw [hfind]
      show (if t.status.isTerminal then q else _) = q
      rw [if_pos hterm]
  · intro hfind
    constructor
    · intro agent r
      unfold doneQ
      rw [hfind]
    · unfold evictQ
      rw [hfind]

/-- C7 witness: with task 1 already Success, `Done` fails with
UnknownTask and `Evict` leaves the queue unchanged. -/
theorem c7_witness :
    doneQ [exA2] 1 7 .failure = .error .unknownTask ∧
    evictQ [exA2] 1 = [exA2] := by
  have h := (c7_terminal_idempotent [exA2] 1).1 exA2 rfl rfl
  exact ⟨h.1 7 .failure, h.2⟩

/-! ## C1 -/

theorem findTask_setStatus_eq {q : Queue} {i : Nat} (s : TStatus)
    (reason : Option String) {j : Nat} {t : Task}
    (h : findTask q j = some t) (hid : (t.id == i) = true) :
    findTask (setStatus q i s reason) j =
      some ⟨t.id, t.labels, t.dependencies, s, t.enqueuedAt, none,
        t.leaseExpiresAt, t.requeueCount, reason⟩ := by
  unfold setStatus
  rw [findTask_map (by intro u; split <;> rfl), h]
  simp only [Option.map_some', Option.some.injEq]
  rw [if_pos hid]

theorem findTask_setStatus_ne {q : Queue} {i : Nat} {s : TStatus}
    {reason : Option String} {j : Nat} {t : Task}
    (h : findTask q j = some t) (hid : (t.id == i) = false) :
    findTask (setStatus q i s reason) j = some t := by
  unfold setStatus
  rw [findTask_map (by intro u; split <;> rfl), h]
  simp only [Option.map_some', Option.some.injEq]
  rw [if_neg (by rw [hid]; intro hc; cases hc)]

theorem markOne_stable {q : Queue} {v : Task}
    (h1 : v.status ≠ .pending) (h2 : v.status ≠ .waitingOnDependency) :
    markOne q v = v := by
  unfold markOne
  rw [if_neg]
  intro hc
  rcases hc.1 with h | h
  · exact h1 h
  · exact h2 h

theorem findTask_markSkips_stable {q : Queue} {i : Nat} {v : Task}
    (hfind : findTask q i = some v)
    (h1 : v.status ≠ .pending) (h2 : v.status ≠ .waitingOnDependency) :
    findTask (markSkips q) i = some v := by
  unfold markSkips
  rw [findTask_map (by intro u; unfold markOne; split <;> rfl), hfind]
  simp only [Option.map_some', Option.some.injEq]
  exact markOne_stable h1 h2

theorem findTask_cascadeN_stable (n : Nat) {q : Queue} {i : Nat} {v : Task}
    (hfind : findTask q i = some v)
    (h1 : v.status ≠ .pending) (h2 : v.status ≠ .waitingOnDependency) :
    findTask (cascadeN n q) i = some v := by
  induction n generalizing q with
  | zero => exact hfind
  | succ n ih => exact ih (findTask_markSkips_stable hfind h1 h2)

theorem findTask_cascade_stable {q : Queue} {i : Nat} {v : Task}
    (hfind : findTask q i = some v)
    (h1 : v.status ≠ .pending) (h2 : v.status ≠ .waitingOnDependency) :
    findTask (cascade q) i = some v :=
  findTask_cascadeN_stable _ hfind h1 h2

theorem findTask_promote_stable {q : Queue} {i : Nat} {v : Task}
    (hfind : findTask q i = some v)
    (h2 : v.status ≠ .waitingOnDependency) :
    findTask (promote q) i = some v := by
  unfold promote
  rw [findTask_map (by intro u; split <;> rfl), hfind]
  simp only [Option.map_some', Option.some.injEq]
  rw [if_neg (fun hc => h2 hc.1)]

/-- In any reachable state, `Pop` never returns a task that currently
holds a claim (is Running): claimed tasks are invisible to every
contending agent, at every point in time. -/
theorem pop_never_returns_running {qn : Queue} (hq : Reach qn) {i2 : Nat}
    {v : Task} (hfind : findTask qn i2 = some v)
    (hrun : v.status = .running) {f2 : TFilter} {a2 now2 dur2 : Nat}
    {u2 : Task} {q2 : Queue}
    (hp : popQ qn f2 a2 now2 dur2 = some (u2, q2)) : u2.id ≠ i2 := by
  have hwf := wf_reach hq
  refine pop_not_nonpending (s := .running) hwf.1 ?_ ?_ hp
  · unfold statusOf
    rw [hfind]
    show some v.status = _
    rw [hrun]
  · intro hc
    cases hc

/-- While a task is Running, one serialized operation either leaves its
entry unchanged up to the lease deadline (same status, same claiming
agent — the deadline moves only through the owner's `Extend`), or ends
the claim: the entry's claim is cleared and the task is terminal (owner
`Done` or `Evict`) or reclaimed by a lease sweep whose time has passed
the lease deadline (the claim had expired). -/
theorem running_claim_step {q1 q2 : Queue} (h : StepOp q1 q2) {i : Nat}
    {v : Task} (hfind : findTask q1 i = some v)
    (hrun : v.status = .running) :
    (∃ L2, findTask q2 i = some { v with leaseExpiresAt := L2 }) ∨
    (∃ v2, findTask q2 i = some v2 ∧ v2.claimedBy = none ∧
      (v2.status.isTerminal = true ∨
        ∃ now2 limit2, q2 = sweepQ q1 now2 limit2 ∧
          v.leaseExpiresAt < now2)) := by
  have hveta : { v with leaseExpiresAt := v.leaseExpiresAt } = v := rfl
  cases h with
  | push hp =>
    unfold pushQ at hp
    split at hp
    · cases hp
    · obtain rfl := Except.ok.inj hp
      refine Or.inl ⟨v.leaseExpiresAt, ?_⟩
      rw [hveta]
      exact findTask_append_left hfind
  | pop hp =>
    rename_i f0 a0 n0 d0 t0
    obtain ⟨l1, u0, l2, hq, hq', _, hst, _, _⟩ := popQ_shape hp
    subst hq hq'
    have hne : v ≠ u0 := by
      intro he
      rw [he, hst] at hrun
      cases hrun
    refine Or.inl ⟨v.leaseExpiresAt, ?_⟩
    rw [hveta]
    exact findTask_replace (claimTask u0 a0 n0 d0)
      (show (claimTask u0 a0 n0 d0).id = u0.id from rfl) hfind hne
  | done hp =>
    rename_i j0 ag0 r0
    unfold doneQ at hp
    split at hp
    · cases hp
    · next t0 hfind0 =>
      split at hp
      · cases hp
      · split at hp
        · cases hp
        · by_cases hij : i = j0
          · subst hij
            have hveq : t0 = v := by
              rw [hfind] at hfind0
              exact (Option.some.inj hfind0).symm
            subst hveq
            have ht0i : (t0.id == i) = true := by
              simp [(findTask_eq_some hfind).2]
            split at hp
            · obtain rfl := Except.ok.inj hp
              exact Or.inr ⟨_, findTask_promote_stable
                (findTask_setStatus_eq .success none hfind ht0i)
                (by intro hc; cases hc), rfl, Or.inl rfl⟩
            · obtain rfl := Except.ok.inj hp
              exact Or.inr ⟨_, findTask_cascade_stable
                (findTask_setStatus_eq .failure none hfind ht0i)
                (by intro hc; cases hc) (by intro hc; cases hc),
                rfl, Or.inl rfl⟩
          · have hvne : (v.id == j0) = false := by
              have : v.id = i := (findTask_eq_some hfind).2
              simp [this, hij]
            split at hp
            · obtain rfl := Except.ok.inj hp
              refine Or.inl ⟨v.leaseExpiresAt, ?_⟩
              rw [hveta]
              refine findTask_promote_stable
                (findTask_setStatus_ne hfind hvne) ?_
              rw [hrun]
              intro hc
              cases hc
            · obtain rfl := Except.ok.inj hp
              refine Or.inl ⟨v.leaseExpiresAt, ?_⟩
              rw [hveta]
              refine findTask_cascade_stable
                (findTask_setStatus_ne hfind hvne) ?_ ?_ <;>
                rw [hrun] <;> intro hc <;> cases hc
  | evict j0 =>
    unfold evictQ
    split
    · exact Or.inl ⟨v.leaseExpiresAt, by rw [hveta]; exact hfind⟩
    · next t0 hfind0 =>
      split
      · exact Or.inl ⟨v.leaseExpiresAt, by rw [hveta]; exact hfind⟩
      · by_cases hij : i = j0
        · subst hij
          have hveq : t0 = v := by
            rw [hfind] at hfind0
            exact (Option.some.inj hfind0).symm
          subst hveq
          have ht0i : (t0.id == i) = true := by
            simp [(findTask_eq_some hfind).2]
          exact Or.inr ⟨_, findTask_cascade_stable
            (findTask_setStatus_eq .cancelled none hfind ht0i)
            (by intro hc; cases hc) (by intro hc; cases hc),
            rfl, Or.inl rfl⟩
        · have hvne : (v.id == j0) = false := by
            have : v.id = i := (findTask_eq_some hfind).2
            simp [this, hij]
          refine Or.inl ⟨v.leaseExpiresAt, ?_⟩
          rw [hveta]
          refine findTask_cascade_stable
            (findTask_setStatus_ne hfind hvne) ?_ ?_ <;>
            rw [hrun] <;> intro hc <;> cases hc
  | extend hp =>
    rename_i j0 ag0 n0 d0
    unfold extendQ at hp
    split at hp
    · cases hp
    · split at hp
      · cases hp
      · split at hp
        · cases hp
        · obtain rfl := Except.ok.inj hp
          rw [findTask_map (by intro u; split <;> rfl), hfind]
          simp only [Option.map_some']
          by_cases hvj : (v.id == j0) = true
          · rw [if_pos hvj]
            exact Or.inl ⟨n0 + d0, rfl⟩
          · rw [if_neg hvj]
            exact Or.inl ⟨v.leaseExpiresAt, by rw [hveta]⟩
  | sweep now2 limit2 =>
    unfold sweepQ
    rw [findTask_map
      (by intro u; split; · split <;> rfl
          · rfl), hfind]
    simp only [Option.map_some']
    by_cases hexp : v.leaseExpiresAt < now2
    · rw [if_pos ⟨hrun, hexp⟩]
      by_cases hcnt : v.requeueCount < limit2
      · rw [if_pos hcnt]
        exact Or.inr ⟨_, rfl, rfl, Or.inr ⟨now2, limit2, rfl, hexp⟩⟩
      · rw [if_neg hcnt]
        exact Or.inr ⟨_, rfl, rfl, Or.inr ⟨now2, limit2, rfl, hexp⟩⟩
    · rw [if_neg (fun hc => hexp hc.2)]
      exact Or.inl ⟨v.leaseExpiresAt, by rw [hveta]⟩

/-- C1: with all queue operations serialized (§5), a successful `Pop`
claims a task that was Pending and leaves it Running, claimed by the
popping agent, and no `Pop` on the resulting state returns it again.
Moreover, at every point in time and for any number of contending
agents: in every reachable state, `Pop` never returns a task that
currently holds a claim (is Running), and every serialized operation
applied to a state where a task is Running either leaves that task's
entry unchanged up to the lease deadline — same status and same
claiming agent — or ends the claim (the claim field is cleared) by
completing the task (owner `Done` / `Evict`) or by a lease sweep whose
time is past the lease deadline (the claim had expired).  Hence at most
one agent ever holds a non-expired claim on a task, and at most one of
N contending `Pop` calls claims a given task (no double-dispatch). -/
theorem c1_no_double_dispatch {q : Queue} (hnd : (q.map Task.id).Nodup)
    {f : TFilter} {a now dur : Nat} {t : Task} {q' : Queue}
    (h : popQ q f a now dur = some (t, q')) :
    (∃ v ∈ q, v.id = t.id ∧ v.status = .pending) ∧
    statusOf q' t.id = some .running ∧
    (findTask q' t.id).map Task.claimedBy = some (some a) ∧
    (∀ f2 a2 now2 dur2 u q2,
      popQ q' f2 a2 now2 dur2 = some (u, q2) → u.id ≠ t.id) ∧
    (∀ qn, Reach qn → ∀ i2 v, findTask qn i2 = some v →
      v.status = .running →
      ∀ f2 a2 now2 dur2 u2 q2, popQ qn f2 a2 now2 dur2 = some (u2, q2) →
        u2.id ≠ i2) ∧
    (∀ q1 q2 : Queue, StepOp q1 q2 → ∀ i2 v, findTask q1 i2 = some v →
      v.status = .running →
      (∃ L2, findTask q2 i2 = some { v with leaseExpiresAt := L2 }) ∨
      (∃ v2, findTask q2 i2 = some v2 ∧ v2.claimedBy = none ∧
        (v2.status.isTerminal = true ∨
          ∃ now2 limit2, q2 = sweepQ q1 now2 limit2 ∧
            v.leaseExpiresAt < now2))) := by
  obtain ⟨l1, u0, l2, hq, hq', ht, hst, hfl, hnone⟩ := popQ_shape h
  have htmem : claimTask u0 a now dur ∈ q' := by
    rw [hq']
    exact List.mem_append.mpr (Or.inr (List.mem_cons_self _ _))
  have hids : q'.map Task.id = q.map Task.id := by
    rw [hq, hq']
    simp [claimTask]
  have hnd' : (q'.map Task.id).Nodup := by rw [hids]; exact hnd
  have hfind : findTask q' t.id = some (claimTask u0 a now dur) := by
    rw [ht]
    exact findTask_mem_nodup hnd' htmem
  refine ⟨⟨u0, ?_, by rw [ht]; rfl, hst⟩, ?_, ?_, ?_, ?_, ?_⟩
  · rw [hq]
    exact List.mem_append.mpr (Or.inr (List.mem_cons_self _ _))
  · unfold statusOf
    rw [hfind]
    rfl
  · rw [hfind]
    rfl
  · intro f2 a2 now2 dur2 u q2 h2
    refine pop_not_nonpending (s := .running) hnd' ?_ ?_ h2
    · unfold statusOf
      rw [hfind]
      rfl
    · intro hc
      cases hc
  · intro qn hqn i2 v hfv hrv f2 a2 now2 dur2 u2 q2 h2
    exact pop_never_returns_running hqn hfv hrv h2
  · intro q1 q2 hstep i2 v hfv hrv
    exact running_claim_step hstep hfv hrv

/-- C1 witness: popping from the two-task example queue claims task 1 —
Running, claimed by agent 7 — and in the reachable state
`[exA1, exC1]`, where task 1 is Running (claimed by agent 7) next to
the Pending task 3, a contending pop by agent 9 returns a task whose id
is not 1: the claimed task is not double-dispatched. -/
theorem c1_witness :
    statusOf [exA1, exB0] exA1.id = some .running ∧
    (findTask [exA1, exB0] exA1.id).map Task.claimedBy = some (some 7) ∧
    (claimTask exC1 9 6 10).id ≠ 1 :=
  have h := c1_no_double_dispatch (q := [exA0, exB0]) (by decide)
    (show popQ [exA0, exB0] exTrue 7 2 10 = some (exA1, [exA1, exB0])
      from rfl)
  ⟨h.2.1, h.2.2.1,
    h.2.2.2.2.1 [exA1, exC1] reach_ex6 1 exA1 rfl rfl exTrue 9 6 10
      (claimTask exC1 9 6 10) [exA1, claimTask exC1 9 6 10]
      (show popQ [exA1, exC1] exTrue 9 6 10 =
        some (claimTask exC1 9 6 10, [exA1, claimTask exC1 9 6 10])
        from rfl)⟩

/-! ## C4 -/

/-- C4: on a queue sorted by `enqueuedAt` (enqueue order), a successful
`Pop` returns the oldest Pending task matching the filter — skipping any
non-matching tasks ahead of it rather than blocking behind them — and
atomically transitions exactly that task to Running, claimed by the
agent, with the fresh lease deadline `now + dur`; and `Pop` returns none
only when no Pending task matches the filter. -/
theorem c4_pop_oldest_match {q : Queue}
    (hsort : q.Pairwise (fun x y => x.enqueuedAt ≤ y.enqueuedAt))
    (f : TFilter) (a now dur : Nat) :
    (∀ t q', popQ q f a now dur = some (t, q') →
      ∃ l1 v l2, q = l1 ++ v :: l2 ∧
        v.status = .pending ∧ f v.labels = true ∧
        t = claimTask v a now dur ∧
        t.status = .running ∧ t.claimedBy = some a ∧
        t.leaseExpiresAt = now + dur ∧ t.enqueuedAt = v.enqueuedAt ∧
        q' = l1 ++ claimTask v a now dur :: l2 ∧
        (∀ w ∈ l1, ¬(w.status = .pending ∧ f w.labels = true)) ∧
        (∀ u ∈ q, u.status = .pending → f u.labels = true →
          v.enqueuedAt ≤ u.enqueuedAt)) ∧
    (popQ q f a now dur = none →
      ∀ v ∈ q, ¬(v.status = .pending ∧ f v.labels = true)) := by
  constructor
  · intro t q' h
    obtain ⟨l1, v, l2, hq, hq', ht, hst, hfl, hnone⟩ := popQ_shape h
    refine ⟨l1, v, l2, hq, hst, hfl, ht, by rw [ht]; rfl, by rw [ht]; rfl,
      by rw [ht]; rfl, by rw [ht]; rfl, hq', hnone, ?_⟩
    intro u hu hup huf
    rw [hq] at hsort hu
    rw [List.pairwise_append] at hsort
    rcases List.mem_append.mp hu with hmem | hmem
    · exact absurd ⟨hup, huf⟩ (hnone u hmem)
    · rcases List.mem_cons.mp hmem with rfl | hmem2
      · exact Nat.le_refl _
      · exact (List.pairwise_cons.mp hsort.2.1).1 u hmem2
  · intro h v hv
    exact popScan_none h v hv

/-- C4 witness: with a non-matching Pending head (`exH`, labelled
`platform=arm`) in front of a matching label-free task (`exP`), Pop with
the labels-empty filter skips the head and claims `exP`, the older
matching task, as Running with lease deadline 15. -/
theorem c4_witness :
    (claimTask exP 9 5 10).status = .running ∧
    (claimTask exP 9 5 10).claimedBy = some 9 ∧
    (claimTask exP 9 5 10).leaseExpiresAt = 15 := by
  have h := (c4_pop_oldest_match (q := [exH, exP]) (by decide) exEmpty
    9 5 10).1 (claimTask exP 9 5 10) [exH, claimTask exP 9 5 10] rfl
  obtain ⟨l1, v, l2, _, _, _, _, hrun, hcl, hlease, _, _, _, _⟩ := h
  exact ⟨hrun, hcl, hlease⟩

/-! ## C2 -/

/-- C2: in every reachable queue state, a task returned by `Pop` has all
of its dependencies in status Success at that moment — so for tasks
T1→T2, no `Pop` ever returns T2 before T1 has reached Success, and `Pop`
never returns a task with an unmet dependency. -/
theorem c2_pop_deps_success {q : Queue} (hq : Reach q)
    {f : TFilter} {a now dur : Nat} {t : Task} {q' : Queue}
    (h : popQ q f a now dur = some (t, q')) :
    ∀ d ∈ t.dependencies, statusOf q d = some .success := by
  have hwf := wf_reach hq
  obtain ⟨l1, u0, l2, hq0, _, ht, hst, _, _⟩ := popQ_shape h
  have hu0 : u0 ∈ q := by
    rw [hq0]
    exact List.mem_append.mpr (Or.inr (List.mem_cons_self _ _))
  have hdm := hwf.2.1 u0 hu0 (Or.inl hst)
  intro d hd
  have hdm' : depMet q d = true := by
    unfold depsMet at hdm
    rw [List.all_eq_true] at hdm
    refine hdm d ?_
    rw [ht] at hd
    exact hd
  unfold depMet at hdm'
  unfold statusOf
  cases hf : findTask q d with
  | none => rw [hf] at hdm'; cases hdm'
  | some v =>
    rw [hf] at hdm'
    have hvs : v.status = .success := by simpa using hdm'
    show some v.status = some TStatus.success
    rw [hvs]

/-- C2 witness: in the reachable state where task 1 is Success and its
dependent task 2 is Pending, Pop returns task 2 and its dependency
(task 1) is indeed Success at that moment. -/
theorem c2_witness : statusOf [exA2, exB1] 1 = some .success :=
  c2_pop_deps_success reach_ex4
    (show popQ [exA2, exB1] exTrue 8 3 10 =
      some (claimTask exB1 8 3 10, [exA2, claimTask exB1 8 3 10]) from rfl)
    1 (by decide)

/-! ## C3 -/

/-- C3: when a task reaches Failure (via `Done`) or Cancelled (via
`Evict` on a non-terminal task), every transitive dependent of it (other
than the task itself) that was not already terminal is Skipped in the
very queue state the call returns — the cascade is synchronous and
complete — every such dependent ends in a never-dispatched bad status,
and no later `Pop`, in any subsequently reachable state, ever returns
such a dependent. -/
theorem c3_failure_cascade {q : Queue} (hq : Reach q) {i agent : Nat}
    {q' : Queue}
    (h : doneQ q i agent .failure = .ok q' ∨
      ((∃ t0, findTask q i = some t0 ∧ t0.status.isTerminal = false) ∧
        evictQ q i = q'))
    {j : Nat} (hdep : Dependent q i j) (hne : j ≠ i) :
    (∀ tj, findTask q j = some tj → tj.status.isTerminal = false →
      statusOf q' j = some .skipped) ∧
    (∃ u, findTask q' j = some u ∧ u.status.isBad = true) ∧
    (∀ qn, Relation.ReflTransGen StepOp q' qn →
      ∀ tj, findTask q j = some tj → tj.status.isTerminal = false →
      ∀ f2 a2 now2 dur2 u q2,
        popQ qn f2 a2 now2 dur2 = some (u, q2) → u.id ≠ j) := by
  have hwf := wf_reach hq
  have key : ∃ s' t0, s'.isBad = true ∧
      q' = cascade (setStatus q i s' none) ∧
      findTask q i = some t0 ∧ t0.status ≠ .success ∧ WF q' := by
    rcases h with hd | ⟨⟨t0, hfind, hterm⟩, hev⟩
    · have hwf' := wf_done hwf hd
      unfold doneQ at hd
      split at hd
      · cases hd
      · next t0 hfind =>
        split at hd
        · cases hd
        · next hterm =>
          split at hd
          · cases hd
          · next hcl =>
            push_neg at hcl
            have hrun : t0.status = .running :=
              hwf.2.2 t0 (findTask_eq_some hfind).1 (by rw [hcl]; rfl)
            refine ⟨.failure, t0, rfl, (Except.ok.inj hd).symm, hfind,
              ?_, hwf'⟩
            rw [hrun]
            intro hc
            cases hc
    · have hwf' : WF q' := by
        rw [← hev]
        exact wf_evict hwf i
      refine ⟨.cancelled, t0, rfl, ?_, hfind, ?_, hwf'⟩
      · rw [← hev]
        unfold evictQ
        rw [hfind]
        show (if t0.status.isTerminal then q else _) = _
        rw [if_neg (by rw [hterm]; intro hc; cases hc)]
      · intro hc
        rw [hc] at hterm
        cases hterm
  obtain ⟨s', t0, hsbad, hq'eq, hfind, hts, hwf'⟩ := key
  have ht0i : (t0.id == i) = true := by
    simp [(findTask_eq_some hfind).2]
  -- the entry of the triggering task in the post-setStatus queue is bad
  have hftr1 := findTask_setStatus_eq s' none hfind ht0i
  have htr1bad : (⟨t0.id, t0.labels, t0.dependencies, s', t0.enqueuedAt,
      none, t0.leaseExpiresAt, t0.requeueCount, none⟩ : Task).status.isBad
      = true := hsbad
  have hdnr := dependents_not_ready hwf hfind hts
  -- every transitive dependent in the post-setStatus queue is
  -- pending, waiting, or already bad
  have hdeps1 : ∀ j', Dependent (setStatus q i s' none) i j' →
      ∃ tj, findTask (setStatus q i s' none) j' = some tj ∧
        (tj.status = .pending ∨ tj.status = .waitingOnDependency ∨
          tj.status.isBad = true) := by
    intro j' hd1
    have hd0 : Dependent q i j' := by
      unfold setStatus at hd1
      exact dependent_map_mp (by intro u; split <;> rfl)
        (by intro u; split <;> rfl) hd1
    obtain ⟨tj, hftj, hcase⟩ := hdnr j' hd0
    by_cases hji : (tj.id == i) = true
    · exact ⟨_, findTask_setStatus_eq s' none hftj hji,
        Or.inr (Or.inr hsbad)⟩
    · refine ⟨tj, findTask_setStatus_ne hftj (by simpa using hji), ?_⟩
      rcases hcase with h' | h'
      · exact Or.inr (Or.inl h')
      · exact Or.inr (Or.inr h')
  have hdep1 : Dependent (setStatus q i s' none) i j := by
    unfold setStatus
    exact dependent_map_mpr (by intro u; split <;> rfl)
      (by intro u; split <;> rfl) hdep
  have hmarks := cascade_marks hftr1 htr1bad hdeps1 j hdep1
  obtain ⟨u, hfu, hubad⟩ := hmarks
  have hskip : ∀ tj, findTask q j = some tj → tj.status.isTerminal = false →
      statusOf q' j = some .skipped := by
    intro tj hftj htermtj
    have hjne : (tj.id == i) = false := by
      have : tj.id = j := (findTask_eq_some hftj).2
      simp [this, hne]
    have hftj1 : findTask (setStatus q i s' none) j = some tj :=
      findTask_setStatus_ne hftj hjne
    obtain ⟨u2, hfu2, _, _, hust2⟩ := findTask_cascade hftj1
    rw [← hq'eq] at hfu2
    have hu2u : u2 = u := by
      rw [hq'eq] at hfu2
      rw [hfu2] at hfu
      exact Option.some.inj hfu
    subst hu2u
    rcases hust2 with h' | h'
    · exfalso
      rw [h'] at hubad
      rw [isBad_isTerminal hubad] at htermtj
      cases htermtj
    · unfold statusOf
      rw [hfu2]
      show some u2.status = some TStatus.skipped
      rw [h']
  refine ⟨hskip, ⟨u, by rw [hq'eq]; exact hfu, hubad⟩, ?_⟩
  intro qn hsteps tj hftj htermtj f2 a2 now2 dur2 u3 q2 h2
  have hskipn : statusOf qn j = some .skipped :=
    skipped_steps (hskip tj hftj htermtj) hsteps
  have hwfn := steps_trans_wf hwf' hsteps
  refine pop_not_nonpending (s := .skipped) hwfn.1 hskipn ?_ h2
  intro hc
  cases hc

/-- C3 witness: after `Done(1, Failure)` on the example queue where task
2 depends on task 1, the returned state has task 2 Skipped. -/
theorem c3_witness : statusOf [exA3, exB2] 2 = some .skipped :=
  (c3_failure_cascade reach_ex3
    (Or.inl (show doneQ [exA1, exB0] 1 7 .failure = .ok [exA3, exB2]
      from rfl))
    (Dependent.direct (show findTask [exA1, exB0] 2 = some exB0 from rfl)
      (by decide))
    (by decide)).1 exB0 rfl rfl

/-! ## C8 -/

theorem isDigitCh_not_sign {c : Char} (h : isDigitCh c = true) :
    c ≠ '-' ∧ c ≠ '+' := by
  constructor <;> intro hc <;> rw [hc] at h <;> simp [isDigitCh] at h

/-- C8: `pipelinePs` uses the last pipeline's `Number` when the second
positional argument is the literal `"last"` or is absent (empty), and
otherwise parses the argument with `strconv.ParseInt(arg, 10, 64)`: a
parse failure is returned as the command's error (nothing is queried),
an all-digit argument within the signed 64-bit range parses to its
decimal value, and an argument containing a character that is neither a
digit nor a sign always fails to parse. -/
theorem c8_pipeline_ps_arg (arg : String) (lastNumber : Int) :
    ((arg = "last" ∨ arg = "") →
      pipelinePsNumber arg lastNumber = .ok lastNumber) ∧
    (arg ≠ "last" → arg ≠ "" →
      pipelinePsNumber arg lastNumber = goParseInt64 arg) ∧
    (∀ e, arg ≠ "last" → arg ≠ "" → goParseInt64 arg = .error e →
      pipelinePsNumber arg lastNumber = .error e) ∧
    (arg.toList ≠ [] → arg.toList.all isDigitCh = true →
      digitsVal arg.toList ≤ 2 ^ 63 - 1 →
      goParseInt64 arg = .ok (digitsVal arg.toList)) ∧
    (arg.toList.any (fun c => !(isDigitCh c || c == '-' || c == '+')) = true →
      ∃ e, goParseInt64 arg = .error e) := by
  have hlen : arg.length = 0 ↔ arg = "" := by
    constructor
    · intro h
      cases arg with
      | mk data =>
        cases data with
        | nil => rfl
        | cons c cs => simp [String.length] at h
    · intro h; rw [h]; rfl
  refine ⟨?_, ?_, ?_, ?_, ?_⟩
  · intro h
    unfold pipelinePsNumber
    rw [if_pos]
    rcases h with h | h
    · exact Or.inl h
    · exact Or.inr (hlen.mpr h)
  · intro h1 h2
    unfold pipelinePsNumber
    rw [if_neg]
    intro hc
    rcases hc with hc | hc
    · exact h1 hc
    · exact h2 (hlen.mp hc)
  · intro e h1 h2 hp
    unfold pipelinePsNumber
    rw [if_neg, hp]
    intro hc
    rcases hc with hc | hc
    · exact h1 hc
    · exact h2 (hlen.mp hc)
  · intro hne hall hrange
    unfold goParseInt64
    cases hcs : arg.toList with
    | nil => exact absurd hcs hne
    | cons c rest =>
      rw [hcs] at hall hrange
      have hcd : isDigitCh c = true := by
        rw [List.all_eq_true] at hall
        exact hall c (by simp)
      obtain ⟨hnm, hnp⟩ := isDigitCh_not_sign hcd
      have hsign : ¬(c = '-' ∨ c = '+') := by
        intro hc
        rcases hc with hc | hc
        · exact hnm hc
        · exact hnp hc
      simp only
      rw [if_neg hsign]
      rw [if_neg (show ¬((c :: rest).isEmpty = true) from by simp)]
      rw [if_pos hall]
      rw [show (decide (c = '-')) = false from by simp [hnm]]
      rw [if_neg (show ¬(false = true) from by simp)]
      rw [if_pos hrange]
  · intro hbad
    rw [List.any_eq_true] at hbad
    obtain ⟨b, hbmem, hbprop⟩ := hbad
    have hbd : isDigitCh b = false := by
      cases h : isDigitCh b
      · rfl
      · rw [h] at hbprop; simp at hbprop
    have hbm : b ≠ '-' := by
      intro hc
      rw [hc] at hbprop
      simp at hbprop
    have hbp : b ≠ '+' := by
      intro hc
      rw [hc] at hbprop
      simp at hbprop
    unfold goParseInt64
    cases hcs : arg.toList with
    | nil => exact ⟨.errSyntax, rfl⟩
    | cons c rest =>
      rw [hcs] at hbmem
      simp only
      by_cases hsign : c = '-' ∨ c = '+'
      · rw [if_pos hsign]
        have hbrest : b ∈ rest := by
          rcases List.mem_cons.mp hbmem with rfl | h
          · exfalso
            rcases hsign with h' | h'
            · exact hbm h'
            · exact hbp h'
          · exact h
        by_cases hemp : rest.isEmpty = true
        · rw [if_pos hemp]
          exact ⟨.errSyntax, rfl⟩
        · rw [if_neg hemp]
          rw [if_neg]
          · exact ⟨.errSyntax, rfl⟩
          · intro hall
            rw [List.all_eq_true] at hall
            rw [hall b hbrest] at hbd
            cases hbd
      · rw [if_neg hsign]
        rw [if_neg (by simp)]
        rw [if_neg]
        · exact ⟨.errSyntax, rfl⟩
        · intro hall
          rw [List.all_eq_true] at hall
          rw [hall b hbmem] at hbd
          cases hbd

/-- C8 witness: `"last"` queries the last pipeline's number, `"12"` is
parsed as the base-10 integer 12, and `"abc"` yields a parse error. -/
theorem c8_witness :
    pipelinePsNumber "last" 42 = .ok 42 ∧
    pipelinePsNumber "12" 42 = goParseInt64 "12" ∧
    goParseInt64 "12" = .ok (digitsVal "12".toList) ∧
    (∃ e, goParseInt64 "abc" = .error e) :=
  ⟨(c8_pipeline_ps_arg "last" 42).1 (Or.inl rfl),
   (c8_pipeline_ps_arg "12" 42).2.1 (by decide) (by decide),
   (c8_pipeline_ps_arg "12" 42).2.2.2.1 (by decide) (by decide) (by decide),
   (c8_pipeline_ps_arg "abc" 42).2.2.2.2 (by decide)⟩

/-! ## C9 -/

/-- C9: `setupJWTSecret` returns a secret exactly when the store does not
error (other than `RecordNotExist`): an existing record is returned as
is; with no record and a working store the freshly generated secret is
stored and returned, and a subsequent call returns that same secret; any
other get error, or a set error, yields the empty string together with
that error, and the store is unchanged. -/
theorem c9_jwt_secret (st : JWTStore) (fresh fresh2 : String) :
    (∀ v, st.getErr = none → st.record = some v →
      setupJWTSecret st fresh = ((v, none), st)) ∧
    (st.getErr = none → st.record = none → st.setErr = none →
      setupJWTSecret st fresh =
        ((fresh, none), { st with record := some fresh }) ∧
      (setupJWTSecret { st with record := some fresh } fresh2).1 =
        (fresh, none)) ∧
    (∀ c, st.getErr = some c →
      setupJWTSecret st fresh = (("", some (.other c)), st)) ∧
    (∀ c, st.getErr = none → st.record = none → st.setErr = some c →
      setupJWTSecret st fresh = (("", some (.other c)), st)) := by
  obtain ⟨rec, ge, se⟩ := st
  refine ⟨?_, ?_, ?_, ?_⟩
  · intro v hge hrec
    simp only at hge hrec
    subst hge hrec
    rfl
  · intro hge hrec hse
    simp only at hge hrec hse
    subst hge hrec hse
    exact ⟨rfl, rfl⟩
  · intro c hge
    simp only at hge
    subst hge
    rfl
  · intro c hge hrec hse
    simp only at hge hrec hse
    subst hge hrec hse
    rfl

/-- C9 witness: with an empty, error-free store, the fresh secret is
stored and returned, a second call returns the same secret, and an
injected get failure yields the empty string and that error. -/
theorem c9_witness :
    setupJWTSecret ⟨none, none, none⟩ "s1" =
      (("s1", none), ⟨some "s1", none, none⟩) ∧
    (setupJWTSecret ⟨some "s1", none, none⟩ "s2").1 = ("s1", none) ∧
    setupJWTSecret ⟨none, some 3, none⟩ "s1" =
      (("", some (.other 3)), ⟨none, some 3, none⟩) := by
  refine ⟨?_, ?_, ?_⟩
  · exact ((c9_jwt_secret ⟨none, none, none⟩ "s1" "s2").2.1 rfl rfl rfl).1
  · exact ((c9_jwt_secret ⟨none, none, none⟩ "s1" "s2").2.1 rfl rfl rfl).2
  · exact (c9_jwt_secret ⟨none, some 3, none⟩ "s1" "s2").2.2.1 3 rfl

/-! ## C10 -/

theorem cutEq_some_split : ∀ (cs : List Char) (k v : List Char),
    cutEq cs = some (k, v) → cs = k ++ '=' :: v ∧ '=' ∉ k := by
  intro cs
  induction cs with
  | nil => intro k v h; cases h
  | cons c rest ih =>
    intro k v h
    unfold cutEq at h
    by_cases hc : c = '='
    · rw [if_pos hc] at h
      obtain ⟨hk, hv⟩ := Prod.mk.injEq _ _ _ _ ▸ Option.some.inj h
      subst hc
      refine ⟨?_, ?_⟩
      · rw [← hk, ← hv]; rfl
      · rw [← hk]; intro hmem; cases hmem
    · rw [if_neg hc] at h
      cases hrest : cutEq rest with
      | none => rw [hrest] at h; cases h
      | some p =>
        rw [hrest] at h
        obtain ⟨k', v'⟩ := p
        obtain ⟨hk, hv⟩ := Prod.mk.injEq _ _ _ _ ▸ Option.some.inj h
        obtain ⟨hsplit, hnot⟩ := ih k' v' hrest
        refine ⟨?_, ?_⟩
        · rw [← hk, ← hv, hsplit]; rfl
        · rw [← hk]
          intro hmem
          rcases List.mem_cons.mp hmem with heq | hmem2
          · exact hc heq.symm
          · exact hnot hmem2

theorem cutEq_none_iff : ∀ cs : List Char, cutEq cs = none ↔ '=' ∉ cs := by
  intro cs
  induction cs with
  | nil => simp [cutEq]
  | cons c rest ih =>
    unfold cutEq
    by_cases hc : c = '='
    · rw [if_pos hc]
      subst hc
      simp
    · rw [if_neg hc]
      constructor
      · intro h hmem
        rcases List.mem_cons.mp hmem with heq | hmem2
        · exact hc heq.symm
        · cases hrest : cutEq rest with
          | none => exact (ih.mp hrest) hmem2
          | some p => rw [hrest] at h; cases h
      · intro h
        have : '=' ∉ rest := fun hm => h (List.mem_cons_of_mem _ hm)
        rw [ih.mpr this]
        rfl

theorem mapPut_any_self (m : List (String × String)) (k v : String) :
    (mapPut m k v).any (fun pr => pr.1 == k) = true := by
  unfold mapPut
  by_cases hin : m.any (fun pr => pr.1 == k) = true
  · rw [if_pos hin]
    rw [List.any_eq_true] at hin ⊢
    obtain ⟨pr, hmem, hk⟩ := hin
    refine ⟨(k, v), List.mem_map.mpr ⟨pr, hmem, by rw [if_pos hk]⟩, ?_⟩
    simp
  · rw [if_neg hin]
    rw [List.any_eq_true]
    exact ⟨(k, v), List.mem_append.mpr (Or.inr (by simp)), by simp⟩

theorem mapPut_any_mono (m : List (String × String)) (k v k0 : String)
    (h : m.any (fun pr => pr.1 == k0) = true) :
    (mapPut m k v).any (fun pr => pr.1 == k0) = true := by
  unfold mapPut
  by_cases hin : m.any (fun pr => pr.1 == k) = true
  · rw [if_pos hin]
    rw [List.any_eq_true] at h ⊢
    obtain ⟨pr, hmem, hk0⟩ := h
    by_cases hk : (pr.1 == k) = true
    · refine ⟨(k, v), List.mem_map.mpr ⟨pr, hmem, by rw [if_pos hk]⟩, ?_⟩
      have h1 : pr.1 = k := by simpa using hk
      have h2 : pr.1 = k0 := by simpa using hk0
      simp [← h1, h2]
    · exact ⟨pr, List.mem_map.mpr ⟨pr, hmem, by rw [if_neg hk]⟩, hk0⟩
  · rw [if_neg hin]
    rw [List.any_eq_true] at h ⊢
    obtain ⟨pr, hmem, hk0⟩ := h
    exact ⟨pr, List.mem_append.mpr (Or.inl hmem), hk0⟩

theorem parseLabelsAux_error : ∀ (entries : List String)
    (acc : List (String × String)),
    (∃ e ∈ entries, cutEq e.toList = none) →
    ∃ e ∈ entries, cutEq e.toList = none ∧
      parseLabelsAux acc entries = .error ("invalid label filter: " ++ e) := by
  intro entries
  induction entries with
  | nil => intro acc h; obtain ⟨e, he, _⟩ := h; cases he
  | cons e rest ih =>
    intro acc h
    cases hcut : cutEq e.toList with
    | none =>
      refine ⟨e, by simp, hcut, ?_⟩
      unfold parseLabelsAux
      rw [hcut]
    | some p =>
      obtain ⟨e0, he0, hc0⟩ := h
      have he0r : e0 ∈ rest := by
        rcases List.mem_cons.mp he0 with rfl | hm
        · rw [hcut] at hc0; cases hc0
        · exact hm
      obtain ⟨e1, he1, hc1, hp⟩ := ih
        (mapPut acc (String.mk p.1) (String.mk p.2)) ⟨e0, he0r, hc0⟩
      refine ⟨e1, List.mem_cons_of_mem _ he1, hc1, ?_⟩
      unfold parseLabelsAux
      rw [hcut]
      exact hp

theorem parseLabelsAux_ok : ∀ (entries : List String)
    (acc : List (String × String)),
    (∀ e ∈ entries, ∃ p, cutEq e.toList = some p) →
    ∃ m, parseLabelsAux acc entries = .ok m ∧
      (∀ k0, acc.any (fun pr => pr.1 == k0) = true →
        m.any (fun pr => pr.1 == k0) = true) ∧
      (∀ e ∈ entries, ∀ k v, cutEq e.toList = some (k, v) →
        m.any (fun pr => pr.1 == String.mk k) = true) := by
  intro entries
  induction entries with
  | nil =>
    intro acc _
    exact ⟨acc, rfl, fun k0 h => h, fun e he => absurd he (by simp)⟩
  | cons e rest ih =>
    intro acc h
    obtain ⟨p, hp⟩ := h e (by simp)
    obtain ⟨m, hm, hmono, hkeys⟩ := ih
      (mapPut acc (String.mk p.1) (String.mk p.2))
      (fun e2 he2 => h e2 (List.mem_cons_of_mem _ he2))
    refine ⟨m, ?_, ?_, ?_⟩
    · unfold parseLabelsAux
      rw [hp]
      exact hm
    · intro k0 hacc
      exact hmono k0 (mapPut_any_mono _ _ _ _ hacc)
    · intro e2 he2 k v hcut
      rcases List.mem_cons.mp he2 with rfl | hmem
      · rw [hp] at hcut
        obtain ⟨hk, _⟩ := Prod.mk.injEq _ _ _ _ ▸ Option.some.inj hcut
        rw [← hk]
        exact hmono _ (mapPut_any_self _ _ _)
      · exact hkeys e2 hmem k v hcut

/-- C10: the default-workflow-labels loop of `setupEvilGlobals` fails
with `invalid label filter: <entry>` on the first entry containing no
`'='` (so no label map is installed), and when every entry contains an
`'='` it returns a map in which every entry's key — the part of the
entry before its first `'='` — is present; `cutEq` indeed splits a
string at its first `'='`. -/
theorem c10_workflow_labels (entries : List String) :
    ((∃ e ∈ entries, '=' ∉ e.toList) →
      ∃ e ∈ entries, '=' ∉ e.toList ∧
        parseWorkflowLabels entries =
          .error ("invalid label filter: " ++ e)) ∧
    ((∀ e ∈ entries, '=' ∈ e.toList) →
      ∃ m, parseWorkflowLabels entries = .ok m ∧
        ∀ e ∈ entries, ∀ k v, cutEq e.toList = some (k, v) →
          m.any (fun pr => pr.1 == String.mk k) = true) ∧
    (∀ cs k v, cutEq cs = some (k, v) → cs = k ++ '=' :: v ∧ '=' ∉ k) ∧
    (∀ cs : List Char, cutEq cs = none ↔ '=' ∉ cs) := by
  refine ⟨?_, ?_, cutEq_some_split, cutEq_none_iff⟩
  · intro h
    obtain ⟨e0, he0, hc0⟩ := h
    obtain ⟨e, he, hc, hp⟩ := parseLabelsAux_error entries []
      ⟨e0, he0, (cutEq_none_iff _).mpr hc0⟩
    exact ⟨e, he, (cutEq_none_iff _).mp hc, hp⟩
  · intro h
    have hall : ∀ e ∈ entries, ∃ p, cutEq e.toList = some p := by
      intro e he
      cases hcut : cutEq e.toList with
      | none => exact absurd (h e he) ((cutEq_none_iff _).mp hcut)
      | some p => exact ⟨p, rfl⟩
    obtain ⟨m, hm, _, hkeys⟩ := parseLabelsAux_ok entries [] hall
    exact ⟨m, hm, hkeys⟩

/-- C10 witness: `["arch=arm", "arch=arm"]`-style well-formed entries
produce a map containing the key, and the malformed entry `"noequals"`
makes the whole parse fail with `invalid label filter: noequals`. -/
theorem c10_witness :
    (∃ m, parseWorkflowLabels ["arch=arm64", "repo=要"] = .ok m ∧
      m.any (fun pr => pr.1 == "arch") = true) ∧
    (∃ e ∈ (["arch=arm64", "noequals"] : List String), '=' ∉ e.toList ∧
      parseWorkflowLabels ["arch=arm64", "noequals"] =
        .error ("invalid label filter: " ++ e)) := by
  constructor
  · obtain ⟨m, hm, hkeys⟩ :=
      (c10_workflow_labels ["arch=arm64", "repo=要"]).2.1 (by decide)
    refine ⟨m, hm, ?_⟩
    have := hkeys "arch=arm64" (by simp) "arch".toList "arm64".toList
      (by decide)
    simpa using this
  · exact (c10_workflow_labels ["arch=arm64", "noequals"]).1
      ⟨"noequals", by simp, by decide⟩

end Woodpecker
